import Mathlib

/-!
Verification of the Response Normalizer in `src/analysis.py` (`get_response`,
lines 113-142).

The Python function receives the upstream payload as a parsed JSON object
(`response_json = json.loads(completion.model_dump_json())`), extracts
`response_json['choices'][0]['message']['content']`, and normalizes it:

1. try `json.loads(content)`; on success return `json.dumps(value, indent=2)`;
   only `json.JSONDecodeError` is caught (a non-string `content` raises
   `TypeError`, which propagates);
2. on step-1 decode failure, search `content` for the first match of the
   regex `` r'```json\s*(.*?)\s*```' `` with `re.DOTALL`, and if the captured
   group parses as JSON return its `json.dumps(value, indent=2)`; the bare
   `except:` swallows every error here;
3. otherwise return `content` unchanged;
4. if `'choices' not in response_json or len(response_json['choices']) == 0`,
   return `"ERROR PROCESSING IMAGE: " + json.dumps(response_json, indent=2)`.

The embedding below models JSON values (`Json`), the parts of Python's
`json.loads` / `json.dumps(indent=2)` behaviour the function exercises, the
regex search, and Python's `[]` subscript / `len` semantics including the
exceptions they raise.  Modelling notes, each marked at its definition:
* JSON numbers are modelled as integers; any float syntax (`.`, `e`, `E`
  after the integer part, or `NaN`/`Infinity`) is treated as an invalid
  document.  No claim depends on non-integer numbers.
* Strings are lists of Unicode scalar values (`Char`); `json.dumps` uses its
  default `ensure_ascii=True` escaping, including `\uXXXX` and surrogate
  pairs, and the parser decodes those escapes.  Lone surrogates (which CPython
  tolerates) are rejected, since `Char` cannot represent them.
* Stack-depth limits (`RecursionError` on extremely nested input) are outside
  the model.
-/

set_option maxHeartbeats 1000000

abbrev LC := List Char

/-- JSON values as Python's `json` module produces them: `None`, `bool`,
`int`, `str`, `list`, `dict` (insertion-ordered association list). -/
inductive Json where
  | null
  | bool (b : Bool)
  | num (n : Int)
  | str (s : LC)
  | arr (xs : List Json)
  | obj (kvs : List (LC × Json))

instance : Inhabited Json := ⟨Json.null⟩

/-- The JSON-syntax whitespace characters skipped by Python's `json` scanner
(space, tab, newline, carriage return). -/
def isJsonWs (c : Char) : Bool := c.toNat = 32 || c.toNat = 9 || c.toNat = 10 || c.toNat = 13

/-- Drop leading JSON whitespace, as the scanner's `_w(s, idx).end()` does. -/
def skipJsonWs : LC → LC
  | [] => []
  | c :: r => if isJsonWs c then skipJsonWs r else c :: r

/-- Value of one hex digit, accepting `0-9`, `a-f`, `A-F` as Python's
`\uXXXX` decoding does. -/
def hexVal (c : Char) : Option Nat :=
  if 48 ≤ c.toNat ∧ c.toNat ≤ 57 then some (c.toNat - 48)
  else if 97 ≤ c.toNat ∧ c.toNat ≤ 102 then some (c.toNat - 87)
  else if 65 ≤ c.toNat ∧ c.toNat ≤ 70 then some (c.toNat - 55)
  else none

/-- Value of a four-hex-digit escape body. -/
def hex4 (a b c d : Char) : Option Nat :=
  match hexVal a, hexVal b, hexVal c, hexVal d with
  | some x, some y, some z, some w => some (((x * 16 + y) * 16 + z) * 16 + w)
  | _, _, _, _ => none

/-- The short backslash escapes accepted inside JSON strings. -/
def unescapeChar (e : Char) : Option Char :=
  if e = '"' then some '"' else if e = '\\' then some '\\' else if e = '/' then some '/'
  else if e = 'b' then some '\x08' else if e = 'f' then some '\x0c'
  else if e = 'n' then some '\n' else if e = 'r' then some '\r' else if e = 't' then some '\t'
  else none

/-- Build a `Char` from a code point, failing on values no Unicode scalar
value has (this is where lone surrogates are rejected, see the module note). -/
def chrOf (n : Nat) : Option Char :=
  if Nat.isValidChar n then some (Char.ofNat n) else none

mutual

/-- JSON string-body scanner (Python `json.decoder.py_scanstring` in strict
mode): the input starts right after the opening quote; returns the decoded
characters and the text after the closing quote.  Raw control characters are
rejected, `\uXXXX` escapes are decoded (`parseStrEsc`), and a high surrogate
must be followed by a low surrogate. -/
def parseStringAux : LC → Option (LC × LC)
  | [] => none
  | c :: rest =>
    if c = '"' then some ([], rest)
    else if c = '\\' then parseStrEsc rest
    else if c.toNat < 0x20 then none
    else (parseStringAux rest).map (fun p => (c :: p.1, p.2))

/-- Decode what follows a backslash: `\uXXXX` or a short escape.  A
truncated `\u` (fewer than four hex digits, handled in `parseStrU`) fails
just as Python's "Invalid \uXXXX escape" does. -/
def parseStrEsc : LC → Option (LC × LC)
  | [] => none
  | e :: rest2 =>
    if e = 'u' then parseStrU rest2
    else (unescapeChar e).bind (fun ec => (parseStringAux rest2).map (fun p => (ec :: p.1, p.2)))

/-- Decode the four hex digits after `\u`; a high surrogate defers to
`parseStrU2` for the mandatory low-surrogate partner. -/
def parseStrU : LC → Option (LC × LC)
  | a :: b :: c :: d :: rest3 =>
    (hex4 a b c d).bind (fun n =>
      if 0xd800 ≤ n ∧ n ≤ 0xdbff then parseStrU2 n rest3
      else if 0xdc00 ≤ n ∧ n ≤ 0xdfff then none
      else (chrOf n).bind (fun ch => (parseStringAux rest3).map (fun p => (ch :: p.1, p.2))))
  | _ => none

/-- Decode the `\uXXXX` low surrogate following a high surrogate `n` and
combine the pair into one code point. -/
def parseStrU2 (n : Nat) : LC → Option (LC × LC)
  | e2 :: u2 :: a2 :: b2 :: c2 :: d2 :: rest4 =>
    if e2 = '\\' ∧ u2 = 'u' then
      (hex4 a2 b2 c2 d2).bind (fun m =>
        if 0xdc00 ≤ m ∧ m ≤ 0xdfff then
          (chrOf (0x10000 + (n - 0xd800) * 0x400 + (m - 0xdc00))).bind (fun ch =>
            (parseStringAux rest4).map (fun p => (ch :: p.1, p.2)))
        else none)
    else none
  | _ => none

end

/-- Decimal digit test, by code point. -/
def isDigitC (c : Char) : Bool := 48 ≤ c.toNat && c.toNat ≤ 57

/-- Value of a list of decimal digits. -/
def digitsVal (l : LC) : Nat := l.foldl (fun a c => 10 * a + (c.toNat - 48)) 0

/-- After the integer part of a number, Python's `NUMBER_RE` would also
consume a fraction or exponent, producing a float; the integer-only model
treats such input as invalid (module note). -/
def numCheckTail (n : Nat) (r : LC) : Option (Nat × LC) :=
  match r with
  | c :: _ => if c = '.' ∨ c = 'e' ∨ c = 'E' then none else some (n, r)
  | [] => some (n, r)

/-- Unsigned integer token, following `NUMBER_RE`'s `(?:0|[1-9]\d*)`: a
leading `0` is a complete token on its own. -/
def parseUNum : LC → Option (Nat × LC)
  | [] => none
  | c :: rest =>
    if c = '0' then numCheckTail 0 rest
    else if isDigitC c then
      numCheckTail (digitsVal (c :: rest.takeWhile isDigitC)) (rest.dropWhile isDigitC)
    else none

/-- Python `dict` assignment `d[k] = v`: replace the value in place if the
key exists, else append. -/
def dictInsert : List (LC × Json) → LC → Json → List (LC × Json)
  | [], k, v => [(k, v)]
  | (k', v') :: rest, k, v =>
    if k' = k then (k', v) :: rest else (k', v') :: dictInsert rest k v

/-- `dict(pairs)`: the object-pairs hook Python's decoder applies, so a
duplicated key keeps its first position and last value. -/
def foldKVs (pairs : List (LC × Json)) : List (LC × Json) :=
  pairs.foldl (fun d kv => dictInsert d kv.1 kv.2) []

/-- Consume an exact literal (the scanner's `s[idx:idx + n] == 'null'`
checks), returning the rest of the input. -/
def stripPre : LC → LC → Option LC
  | [], s => some s
  | _ :: _, [] => none
  | p :: ps, c :: cs => if c = p then stripPre ps cs else none

mutual

/-- JSON value scanner (Python `json.scanner.py_make_scanner`), with integer
numbers only (module note).  `fuel` bounds the recursion; `pyLoads` supplies
enough for any input. -/
def parseVal : Nat → LC → Option (Json × LC)
  | 0, _ => none
  | fuel + 1, s0 =>
    match skipJsonWs s0 with
    | [] => none
    | c :: r =>
      if c = 'n' then (stripPre ['u', 'l', 'l'] r).map (fun r2 => (.null, r2))
      else if c = 't' then (stripPre ['r', 'u', 'e'] r).map (fun r2 => (.bool true, r2))
      else if c = 'f' then (stripPre ['a', 'l', 's', 'e'] r).map (fun r2 => (.bool false, r2))
      else if c = '"' then (parseStringAux r).map (fun p => (.str p.1, p.2))
      else if c = '\x7b' then
        if (skipJsonWs r).head? = some '\x7d' then some (.obj [], (skipJsonWs r).tail)
        else (parseMembers fuel (skipJsonWs r)).map (fun p => (.obj (foldKVs p.1), p.2))
      else if c = '[' then
        if (skipJsonWs r).head? = some ']' then some (.arr [], (skipJsonWs r).tail)
        else (parseElems fuel (skipJsonWs r)).map (fun p => (.arr p.1, p.2))
      else if c = '-' then (parseUNum r).map (fun p => (.num (-(p.1 : Int)), p.2))
      else (parseUNum (c :: r)).map (fun p => (.num (p.1 : Int), p.2))

/-- Elements of a non-empty array, after the first element's start: value,
then `,` and more elements or `]`. -/
def parseElems : Nat → LC → Option (List Json × LC)
  | 0, _ => none
  | fuel + 1, s =>
    match parseVal fuel s with
    | none => none
    | some (v, r) =>
      match skipJsonWs r with
      | [] => none
      | c :: r2 =>
        if c = ',' then (parseElems fuel r2).map (fun p => (v :: p.1, p.2))
        else if c = ']' then some ([v], r2)
        else none

/-- Members of a non-empty object: `"key"`, `:`, value, then `,` and more
members or the closing brace. -/
def parseMembers : Nat → LC → Option (List (LC × Json) × LC)
  | 0, _ => none
  | fuel + 1, s =>
    match skipJsonWs s with
    | [] => none
    | c :: r =>
      if c = '"' then
        match parseStringAux r with
        | none => none
        | some (k, r2) =>
          match skipJsonWs r2 with
          | [] => none
          | c2 :: r3 =>
            if c2 = ':' then
              match parseVal fuel r3 with
              | none => none
              | some (v, r4) =>
                match skipJsonWs r4 with
                | [] => none
                | c3 :: r5 =>
                  if c3 = ',' then (parseMembers fuel r5).map (fun p => ((k, v) :: p.1, p.2))
                  else if c3 = '\x7d' then some ([(k, v)], r5)
                  else none
            else none
      else none

end

/-- Python `json.loads`: scan one value and require only whitespace after it
("Extra data" otherwise).  `none` stands for `json.JSONDecodeError`. -/
def pyLoads (s : LC) : Option Json :=
  match parseVal (s.length + 1) s with
  | some (v, rest) => if skipJsonWs rest = [] then some v else none
  | none => none

/-- Decimal digits of a natural number, most significant first. -/
def natDigitsAux : Nat → Nat → LC
  | 0, _ => []
  | fuel + 1, n =>
    if n < 10 then [Char.ofNat (48 + n)]
    else natDigitsAux fuel (n / 10) ++ [Char.ofNat (48 + n % 10)]

/-- Decimal representation of a natural number. -/
def natDigits (n : Nat) : LC := natDigitsAux (n + 1) n

/-- Python `repr` of an `int`, as `json.dumps` emits it. -/
def intDigits (i : Int) : LC := if i < 0 then '-' :: natDigits i.natAbs else natDigits i.natAbs

/-- Lowercase hex digit, as Python's `\uXXXX` output uses. -/
def hexDigit (k : Nat) : Char := if k < 10 then Char.ofNat (48 + k) else Char.ofNat (87 + k)

/-- Four lowercase hex digits of a value below `0x10000`. -/
def toHex4 (n : Nat) : LC :=
  [hexDigit (n / 4096 % 16), hexDigit (n / 256 % 16), hexDigit (n / 16 % 16), hexDigit (n % 16)]

/-- Escaping of one character by `json.dumps` with its default
`ensure_ascii=True` (CPython's `py_encode_basestring_ascii`): printable
ASCII except `"` and `\` is literal, the five short escapes are used where
they exist, everything else becomes `\uXXXX`, with a surrogate pair for
astral code points. -/
def escChar (c : Char) : LC :=
  if c = '"' then ['\\', '"']
  else if c = '\\' then ['\\', '\\']
  else if 0x20 ≤ c.toNat ∧ c.toNat ≤ 0x7e then [c]
  else if c = '\x08' then ['\\', 'b']
  else if c = '\t' then ['\\', 't']
  else if c = '\n' then ['\\', 'n']
  else if c = '\x0c' then ['\\', 'f']
  else if c = '\r' then ['\\', 'r']
  else if c.toNat < 0x10000 then '\\' :: 'u' :: toHex4 c.toNat
  else '\\' :: 'u' :: toHex4 (0xd800 + (c.toNat - 0x10000) / 0x400) ++
       '\\' :: 'u' :: toHex4 (0xdc00 + (c.toNat - 0x10000) % 0x400)

/-- Escaping of a string body by `json.dumps`. -/
def escStr : LC → LC
  | [] => []
  | c :: cs => escChar c ++ escStr cs

/-- Whitespace `json.dumps` emits after `[` or the opening brace of a
non-empty container: nothing without `indent`, else a newline plus the new
level's spaces. -/
def openWs : Option Nat → Nat → LC
  | none, _ => []
  | some _, lvl => '\n' :: List.replicate lvl ' '

/-- Whitespace after the item separator `,`: one space without `indent`
(separator `", "`), else a newline plus the level's spaces. -/
def sepWs : Option Nat → Nat → LC
  | none, _ => [' ']
  | some _, lvl => '\n' :: List.replicate lvl ' '

/-- Whitespace before a non-empty container's closing bracket: nothing
without `indent`, else a newline plus the enclosing level's spaces. -/
def closeWs : Option Nat → Nat → LC
  | none, _ => []
  | some _, lvl => '\n' :: List.replicate lvl ' '

/-- Indent width per nesting level. -/
def indentW : Option Nat → Nat
  | none => 0
  | some w => w

mutual

/-- Python `json.dumps(value, indent=ind)` at nesting level `lvl` (spaces of
current indentation).  Key separator is `": "` in both modes; empty
containers print as `[]` and the empty braces, exactly as CPython does. -/
def pyDumpsAux (ind : Option Nat) (lvl : Nat) : Json → LC
  | .null => ['n', 'u', 'l', 'l']
  | .bool false => ['f', 'a', 'l', 's', 'e']
  | .bool true => ['t', 'r', 'u', 'e']
  | .num i => intDigits i
  | .str s => '"' :: (escStr s ++ ['"'])
  | .arr [] => ['[', ']']
  | .arr (v :: vs) =>
    '[' :: (openWs ind (lvl + indentW ind) ++ pyDumpsAux ind (lvl + indentW ind) v ++
      arrTail ind (lvl + indentW ind) vs ++ closeWs ind lvl ++ [']'])
  | .obj [] => ['\x7b', '\x7d']
  | .obj (kv :: kvs) =>
    '\x7b' :: (openWs ind (lvl + indentW ind) ++ memberStr ind (lvl + indentW ind) kv ++
      objTail ind (lvl + indentW ind) kvs ++ closeWs ind lvl ++ ['\x7d'])

/-- The `, item` tail of a non-empty array rendering. -/
def arrTail (ind : Option Nat) (lvl : Nat) : List Json → LC
  | [] => []
  | v :: vs => ',' :: (sepWs ind lvl ++ pyDumpsAux ind lvl v ++ arrTail ind lvl vs)

/-- One `"key": value` member rendering. -/
def memberStr (ind : Option Nat) (lvl : Nat) : LC × Json → LC
  | (k, v) => '"' :: (escStr k ++ '"' :: ':' :: ' ' :: pyDumpsAux ind lvl v)

/-- The `, "key": value` tail of a non-empty object rendering. -/
def objTail (ind : Option Nat) (lvl : Nat) : List (LC × Json) → LC
  | [] => []
  | kv :: kvs => ',' :: (sepWs ind lvl ++ memberStr ind lvl kv ++ objTail ind lvl kvs)

end

/-- Python `json.dumps(value)` (`ind = none`) or
`json.dumps(value, indent=w)` (`ind = some w`). -/
def pyDumps (ind : Option Nat) (j : Json) : LC := pyDumpsAux ind 0 j

/-- Whitespace in the sense of the regex class `\s` for `str` patterns
(Unicode whitespace, the set `str.isspace` accepts). -/
def isPyWs (c : Char) : Bool :=
  isJsonWs c || c.toNat = 11 || c.toNat = 12 || (28 ≤ c.toNat && c.toNat ≤ 31) ||
  c.toNat = 133 || c.toNat = 160 || c.toNat = 5760 || (8192 ≤ c.toNat && c.toNat ≤ 8202) ||
  c.toNat = 8232 || c.toNat = 8233 || c.toNat = 8239 || c.toNat = 8287 || c.toNat = 12288

/-- Drop leading regex whitespace. -/
def dropLeadPyWs : LC → LC
  | [] => []
  | c :: r => if isPyWs c then dropLeadPyWs r else c :: r

/-- Drop trailing regex whitespace. -/
def dropTrailPyWs (s : LC) : LC := (dropLeadPyWs s.reverse).reverse

/-- Split a text at the first occurrence of `pat`, returning the part before
it and the part after it. -/
def splitAtFirst (pat : LC) : LC → Option (LC × LC)
  | [] => if pat.isPrefixOf [] then some ([], []) else none
  | c :: rest =>
    if pat.isPrefixOf (c :: rest) then some ([], (c :: rest).drop pat.length)
    else (splitAtFirst pat rest).map (fun p => (c :: p.1, p.2))

/-- Substring test. -/
def hasSub (pat s : LC) : Bool := (splitAtFirst pat s).isSome

/-- The literal part of the fence regex: three backticks then `json`. -/
def fenceMarker : LC := ['\x60', '\x60', '\x60', 'j', 's', 'o', 'n']

/-- Three backticks, the closing delimiter literal. -/
def ticks : LC := ['\x60', '\x60', '\x60']

/-- The capture of `re.search(r'```json\s*(.*?)\s*```', content, re.DOTALL)`
(analysis.py line 129).  Backtracking over this pattern reduces to: take the
first occurrence of the ```` ```json ```` literal; strip `\s*` after it; the
lazy group then ends at the first following ``` ``` ``` with its trailing
whitespace stripped by the greedy `\s*`.  There is never a later match when
the first literal occurrence has no closing delimiter, because any later
```` ```json ```` would itself contain one. -/
def findFence (s : LC) : Option LC :=
  match splitAtFirst fenceMarker s with
  | none => none
  | some (_, r) =>
    match splitAtFirst ticks (dropLeadPyWs r) with
    | none => none
    | some (body, _) => some (dropTrailPyWs body)

/-- The Python exceptions the normalizer can raise. -/
inductive PyErr where
  | typeErr
  | keyErr
  | indexErr
deriving DecidableEq

/-- Outcome of running the Python function: a returned string, or a
propagated exception. -/
inductive PyResult where
  | ok (s : LC)
  | exn (e : PyErr)
deriving DecidableEq

/-- Lines 120-138 of analysis.py given the extracted `content` value:
step 1 (`json.loads(content)` catching only `JSONDecodeError` — so a
non-string raises `TypeError`), step 2 (fence regex, inner `try` with a bare
`except:`), step 3 (return `content`). -/
def normalizeContent (content : Json) : PyResult :=
  match content with
  | .str s =>
    match pyLoads s with
    | some v => .ok (pyDumps (some 2) v)
    | none =>
      match findFence s with
      | some interior =>
        match pyLoads interior with
        | some v => .ok (pyDumps (some 2) v)
        | none => .ok s
      | none => .ok s
  | _ => .exn .typeErr

/-- Python dict lookup (keys are unique in dicts produced by `json.loads`;
on a list with duplicates this takes the first, which matches `dict`
semantics for the lists `foldKVs` builds). -/
def lookupKey : List (LC × Json) → LC → Option Json
  | [], _ => none
  | kv :: rest, k => if kv.1 = k then some kv.2 else lookupKey rest k

/-- Python `len` on a JSON value: defined for `str`, `list`, `dict`;
`TypeError` (here `none`) for the rest. -/
def pyLen : Json → Option Nat
  | .str s => some s.length
  | .arr xs => some xs.length
  | .obj kvs => some kvs.length
  | _ => none

/-- A Python subscript key: an integer index or a string key. -/
inductive PyKey where
  | ix (n : Nat)
  | key (k : LC)

/-- Python subscript `x[k]` on a JSON value, with the exception each
ill-typed combination raises: `list[str]`/`str[str]`/scalar subscripts raise
`TypeError`, a missing dict key (or an int key on these string-keyed dicts)
raises `KeyError`, an out-of-range index raises `IndexError`. -/
def pyGetItem : Json → PyKey → Except PyErr Json
  | .arr xs, .ix n => match xs[n]? with | some v => .ok v | none => .error .indexErr
  | .arr _, .key _ => .error .typeErr
  | .obj kvs, .key k => match lookupKey kvs k with | some v => .ok v | none => .error .keyErr
  | .obj _, .ix _ => .error .keyErr
  | .str s, .ix n => match s[n]? with | some c => .ok (.str [c]) | none => .error .indexErr
  | .str _, .key _ => .error .typeErr
  | _, _ => .error .typeErr

/-- Key `'choices'`. -/
def choicesKey : LC := "choices".data

/-- Key `'message'`. -/
def messageKey : LC := "message".data

/-- Key `'content'`. -/
def contentKey : LC := "content".data

/-- The fixed sentinel literal of line 142. -/
def errSentinel : LC := "ERROR PROCESSING IMAGE: ".data

/-- Lines 117-142 of analysis.py, from the parsed upstream payload
`response_json` (a JSON object, i.e. an association list): if
`'choices' in response_json and len(response_json['choices']) > 0`, extract
`response_json['choices'][0]['message']['content']` (each subscript may
raise) and normalize it; otherwise return the sentinel-prefixed
`json.dumps(response_json, indent=2)`. -/
def getResponseNormalize (payload : List (LC × Json)) : PyResult :=
  match lookupKey payload choicesKey with
  | none => .ok (errSentinel ++ pyDumps (some 2) (.obj payload))
  | some choices =>
    match pyLen choices with
    | none => .exn .typeErr
    | some n =>
      if 0 < n then
        match pyGetItem choices (.ix 0) with
        | .error e => .exn e
        | .ok choice0 =>
          match pyGetItem choice0 (.key messageKey) with
          | .error e => .exn e
          | .ok msg =>
            match pyGetItem msg (.key contentKey) with
            | .error e => .exn e
            | .ok content => normalizeContent content
      else .ok (errSentinel ++ pyDumps (some 2) (.obj payload))

/-- A payload of the shape the chat-completions API actually returns, with a
given `content` value in the first choice. -/
def mkPayload (content : Json) : List (LC × Json) :=
  [(choicesKey, .arr [.obj [(messageKey, .obj [(contentKey, content)])]])]

mutual

/-- Size measure used as parser fuel. -/
def jsize : Json → Nat
  | .null => 1
  | .bool _ => 1
  | .num _ => 1
  | .str _ => 1
  | .arr xs => 1 + elsSize xs
  | .obj kvs => 1 + memSize kvs

def elsSize : List Json → Nat
  | [] => 0
  | v :: vs => 1 + jsize v + elsSize vs

def memSize : List (LC × Json) → Nat
  | [] => 0
  | kv :: kvs => 1 + jsize kv.2 + memSize kvs

end

/-- Keys of an object, in order. -/
def keysOf (kvs : List (LC × Json)) : List LC := kvs.map (fun kv => kv.1)

mutual

/-- Well-formedness carving out the `Json` values Python dicts can actually
represent: every object's keys are pairwise distinct. -/
def jwf : Json → Bool
  | .null => true
  | .bool _ => true
  | .num _ => true
  | .str _ => true
  | .arr xs => elsWf xs
  | .obj kvs => decide ((keysOf kvs).Nodup) && memsWf kvs

def elsWf : List Json → Bool
  | [] => true
  | v :: vs => jwf v && elsWf vs

def memsWf : List (LC × Json) → Bool
  | [] => true
  | kv :: kvs => jwf kv.2 && memsWf kvs

end

mutual

/-- No string or key of the value contains a backtick (so its rendering
cannot interfere with fence delimiters). -/
def jNoTick : Json → Bool
  | .null => true
  | .bool _ => true
  | .num _ => true
  | .str s => decide ('\x60' ∉ s)
  | .arr xs => elsNoTick xs
  | .obj kvs => memsNoTick kvs

def elsNoTick : List Json → Bool
  | [] => true
  | v :: vs => jNoTick v && elsNoTick vs

def memsNoTick : List (LC × Json) → Bool
  | [] => true
  | kv :: kvs => decide ('\x60' ∉ kv.1) && jNoTick kv.2 && memsNoTick kvs

end

/-- What may legally follow a printed number so the scanner stops exactly
at its end. -/
def numTailOk (r : LC) : Prop :=
  match r with
  | [] => True
  | c :: _ => isDigitC c = false ∧ c ≠ '.' ∧ c ≠ 'e' ∧ c ≠ 'E'

/-- What may follow a printed value inside a larger printed document:
nothing, whitespace, a separator comma, or a closing bracket. -/
def restOk (r : LC) : Prop :=
  match r with
  | [] => True
  | c :: _ => isJsonWs c = true ∨ c = ',' ∨ c = ']' ∨ c = '\x7d'

/-- The text `pre ⬝ ```json ⬝ newline ⬝ mid ⬝ newline ⬝ ``` ⬝ post`. -/
def fencedText (pre mid post : LC) : LC :=
  pre ++ (fenceMarker ++ ('\n' :: (mid ++ ('\n' :: (ticks ++ post)))))

/-- Whether a JSON value is a Python `str`. -/
def isStrJ : Json → Bool
  | .str _ => true
  | _ => false

/-- The payload shapes on which lines 117-138 run without raising: either no
usable `choices`, or a first choice carrying `message.content` that is a
string. -/
def payloadShapeOk (p : List (LC × Json)) : Bool :=
  match lookupKey p choicesKey with
  | none => true
  | some c =>
    match pyLen c with
    | none => false
    | some n =>
      if n = 0 then true
      else
      match pyGetItem c (.ix 0) with
      | .error _ => false
      | .ok ch =>
        match pyGetItem ch (.key messageKey) with
        | .error _ => false
        | .ok m =>
          match pyGetItem m (.key contentKey) with
          | .error _ => false
          | .ok content => isStrJ content

/- Sanity checks of the embedding against concrete Python behaviour
(the spec's example scenarios in section 8). -/

example : pyDumps (some 2) (.obj [("menu".data, .str "Soup".data)]) =
    "\x7b\n  \"menu\": \"Soup\"\n\x7d".data := by decide

example : normalizeContent (.str "\x7b\"menu\":\"Soup\"\x7d".data) =
    .ok ("\x7b\n  \"menu\": \"Soup\"\n\x7d".data) := rfl

example : normalizeContent (.str "Here you go:\n```json\n\x7b\"menu\":\"Rice\"\x7d\n```\nEnjoy!".data) =
    .ok ("\x7b\n  \"menu\": \"Rice\"\n\x7d".data) := rfl

example : normalizeContent (.str "I cannot analyze this image.".data) =
    .ok ("I cannot analyze this image.".data) := rfl

example : getResponseNormalize [("error".data, .str "timeout".data)] =
    .ok ("ERROR PROCESSING IMAGE: \x7b\n  \"error\": \"timeout\"\n\x7d".data) := rfl

/- Character-level helper lemmas. -/

theorem char_eq_of_toNat {a b : Char} (h : a.toNat = b.toNat) : a = b := by
  have ha := Char.ofNat_toNat a
  have hb := Char.ofNat_toNat b
  rw [← ha, ← hb, h]

theorem char_ne_of_toNat {a b : Char} (h : a.toNat ≠ b.toNat) : a ≠ b :=
  fun he => h (he ▸ rfl)

theorem char_valid_cases (c : Char) : c.toNat < 55296 ∨ (57343 < c.toNat ∧ c.toNat < 1114112) :=
  c.valid

/- Whitespace-skipping lemmas. -/

theorem skipJsonWs_append_ws (l s : LC) (h : ∀ c ∈ l, isJsonWs c = true) :
    skipJsonWs (l ++ s) = skipJsonWs s := by
  induction l with
  | nil => rfl
  | cons c t ih =>
    have hc := h c (List.mem_cons_self c t)
    rw [List.cons_append]
    simp only [skipJsonWs, hc, if_true]
    exact ih (fun x hx => h x (List.mem_cons_of_mem c hx))

theorem skipJsonWs_cons_neg (c : Char) (s : LC) (h : isJsonWs c = false) :
    skipJsonWs (c :: s) = c :: s := by
  simp [skipJsonWs, h]

theorem dropLeadPyWs_append_ws (l s : LC) (h : ∀ c ∈ l, isPyWs c = true) :
    dropLeadPyWs (l ++ s) = dropLeadPyWs s := by
  induction l with
  | nil => rfl
  | cons c t ih =>
    have hc := h c (List.mem_cons_self c t)
    rw [List.cons_append]
    simp only [dropLeadPyWs, hc, if_true]
    exact ih (fun x hx => h x (List.mem_cons_of_mem c hx))

theorem dropLeadPyWs_cons_neg (c : Char) (s : LC) (h : isPyWs c = false) :
    dropLeadPyWs (c :: s) = c :: s := by
  simp [dropLeadPyWs, h]

theorem openWs_ws (ind : Option Nat) (lvl : Nat) : ∀ c ∈ openWs ind lvl, isJsonWs c = true := by
  cases ind with
  | none => intro c hc; simp [openWs] at hc
  | some w =>
    intro c hc
    simp only [openWs, List.mem_cons] at hc
    rcases hc with h | h
    · subst h; decide
    · rw [List.eq_of_mem_replicate h]; decide

theorem sepWs_ws (ind : Option Nat) (lvl : Nat) : ∀ c ∈ sepWs ind lvl, isJsonWs c = true := by
  cases ind with
  | none =>
    intro c hc
    simp only [sepWs, List.mem_singleton] at hc
    subst hc; decide
  | some w =>
    intro c hc
    simp only [sepWs, List.mem_cons] at hc
    rcases hc with h | h
    · subst h; decide
    · rw [List.eq_of_mem_replicate h]; decide

theorem closeWs_ws (ind : Option Nat) (lvl : Nat) : ∀ c ∈ closeWs ind lvl, isJsonWs c = true := by
  cases ind with
  | none => intro c hc; simp [closeWs] at hc
  | some w =>
    intro c hc
    simp only [closeWs, List.mem_cons] at hc
    rcases hc with h | h
    · subst h; decide
    · rw [List.eq_of_mem_replicate h]; decide

theorem isPyWs_of_isJsonWs {c : Char} (h : isJsonWs c = true) : isPyWs c = true := by
  simp [isPyWs, h]

/- Decimal-digit printing and scanning. -/

theorem digitsVal_append_one (l : LC) (d : Char) :
    digitsVal (l ++ [d]) = 10 * digitsVal l + (d.toNat - 48) := by
  simp [digitsVal, List.foldl_append]

theorem natDigitsAux_spec : ∀ (fuel n : Nat), n < fuel →
    ∃ c t, natDigitsAux fuel n = c :: t ∧ isDigitC c = true ∧ (∀ x ∈ t, isDigitC x = true) ∧
      digitsVal (c :: t) = n ∧ (1 ≤ n → c.toNat ≠ 48) := by
  intro fuel
  induction fuel with
  | zero => intro n hn; omega
  | succ fuel ih =>
    intro n hn
    by_cases h10 : n < 10
    · refine ⟨Char.ofNat (48 + n), [], ?_, ?_, ?_, ?_, ?_⟩
      · simp [natDigitsAux, h10]
      · interval_cases n <;> decide
      · intro x hx; simp at hx
      · interval_cases n <;> decide
      · interval_cases n <;> decide
    · have hdiv : n / 10 < fuel := by omega
      obtain ⟨c, t, he, hd, hall, hval, hz⟩ := ih (n / 10) hdiv
      refine ⟨c, t ++ [Char.ofNat (48 + n % 10)], ?_, hd, ?_, ?_, ?_⟩
      · simp only [natDigitsAux, if_neg h10, he, List.cons_append]
      · intro x hx
        rcases List.mem_append.1 hx with h | h
        · exact hall x h
        · rw [List.mem_singleton.1 h]
          have hm : n % 10 < 10 := Nat.mod_lt _ (by omega)
          interval_cases hmm : (n % 10) <;> decide
      · have hm : n % 10 < 10 := Nat.mod_lt _ (by omega)
        have htn : (Char.ofNat (48 + n % 10)).toNat = 48 + n % 10 := by
          interval_cases hmm : (n % 10) <;> decide
        rw [show (c :: (t ++ [Char.ofNat (48 + n % 10)])) = (c :: t) ++ [Char.ofNat (48 + n % 10)] by simp]
        rw [digitsVal_append_one, hval, htn]
        omega
      · intro _
        exact hz (by omega)

theorem natDigits_spec (n : Nat) :
    ∃ c t, natDigits n = c :: t ∧ isDigitC c = true ∧ (∀ x ∈ t, isDigitC x = true) ∧
      digitsVal (c :: t) = n ∧ (1 ≤ n → c.toNat ≠ 48) :=
  natDigitsAux_spec (n + 1) n (by omega)

theorem numCheckTail_ok (n : Nat) (r : LC) (h : numTailOk r) : numCheckTail n r = some (n, r) := by
  match r with
  | [] => rfl
  | c :: cs =>
    obtain ⟨_, h2, h3, h4⟩ := h
    simp [numCheckTail, h2, h3, h4]

theorem takeWhile_append_of (p : Char → Bool) (l r : LC) (hl : ∀ x ∈ l, p x = true)
    (hr : match r with | [] => True | c :: _ => p c = false) :
    (l ++ r).takeWhile p = l ∧ (l ++ r).dropWhile p = r := by
  induction l with
  | nil =>
    match r with
    | [] => exact ⟨rfl, rfl⟩
    | c :: cs =>
      simp only [List.nil_append, List.takeWhile, List.dropWhile]
      rw [hr]
      exact ⟨rfl, rfl⟩
  | cons c t ih =>
    have hc := hl c (List.mem_cons_self c t)
    have := ih (fun x hx => hl x (List.mem_cons_of_mem c hx))
    simp only [List.cons_append, List.takeWhile_cons, List.dropWhile_cons, hc]
    simp [this.1, this.2]

theorem parseUNum_natDigits (n : Nat) (rest : LC) (h : numTailOk rest) :
    parseUNum (natDigits n ++ rest) = some (n, rest) := by
  obtain ⟨c, t, he, hd, hall, hval, hz⟩ := natDigits_spec n
  by_cases hn : n = 0
  · subst hn
    have h0 : natDigits 0 = ['0'] := rfl
    rw [h0]
    simp only [List.cons_append, List.nil_append, parseUNum, if_pos rfl]
    exact numCheckTail_ok 0 rest h
  · have hc0 : c ≠ '0' := char_ne_of_toNat (by
      have := hz (by omega)
      simpa using this)
    rw [he, List.cons_append]
    simp only [parseUNum, if_neg hc0, hd, if_true]
    have htw := takeWhile_append_of isDigitC t rest hall (by
      match rest with
      | [] => trivial
      | x :: xs => exact h.1)
    rw [htw.1, htw.2, hval]
    exact numCheckTail_ok n rest h

/- Hex-escape round trip. -/

theorem hexVal_hexDigit (k : Nat) (h : k < 16) : hexVal (hexDigit k) = some k := by
  interval_cases k <;> decide

theorem hex4_toHex4 (n : Nat) (h : n < 65536) :
    hex4 (hexDigit (n / 4096 % 16)) (hexDigit (n / 256 % 16)) (hexDigit (n / 16 % 16))
      (hexDigit (n % 16)) = some n := by
  have e1 := hexVal_hexDigit (n / 4096 % 16) (by omega)
  have e2 := hexVal_hexDigit (n / 256 % 16) (by omega)
  have e3 := hexVal_hexDigit (n / 16 % 16) (by omega)
  have e4 := hexVal_hexDigit (n % 16) (by omega)
  simp only [hex4, e1, e2, e3, e4]
  congr 1
  omega

/- String-escaping round trip: scanning the escaped body recovers the
original characters. -/


theorem chrOf_toNat (c : Char) : chrOf c.toNat = some c := by
  have hv : Nat.isValidChar c.toNat := c.valid
  rw [chrOf, if_pos hv, Char.ofNat_toNat]

theorem parseStringAux_escStr (s rest : LC) :
    parseStringAux (escStr s ++ '"' :: rest) = some (s, rest) := by
  induction s with
  | nil => simp [escStr, parseStringAux]
  | cons c cs ih =>
    rw [escStr, List.append_assoc]
    by_cases h1 : c = '"'
    · subst h1
      rw [show escChar '"' = ['\\', '"'] from rfl]
      simp only [List.cons_append, List.nil_append]
      rw [parseStringAux, if_neg (by decide : ¬('\\' : Char) = '"'), if_pos rfl, parseStrEsc,
        if_neg (by decide : ¬('"' : Char) = 'u'),
        show unescapeChar '"' = some '"' from rfl, ih]
      rfl
    · by_cases h2 : c = '\\'
      · subst h2
        rw [show escChar '\\' = ['\\', '\\'] from rfl]
        simp only [List.cons_append, List.nil_append]
        rw [parseStringAux, if_neg (by decide : ¬('\\' : Char) = '"'), if_pos rfl, parseStrEsc,
          if_neg (by decide : ¬('\\' : Char) = 'u'),
          show unescapeChar '\\' = some '\\' from rfl, ih]
        rfl
      · by_cases h3 : 0x20 ≤ c.toNat ∧ c.toNat ≤ 0x7e
        · rw [escChar, if_neg h1, if_neg h2, if_pos h3]
          simp only [List.cons_append, List.nil_append]
          rw [parseStringAux, if_neg h1, if_neg h2, if_neg (by omega : ¬c.toNat < 0x20), ih]
          rfl
        · by_cases h4 : c = '\x08'
          · subst h4
            rw [show escChar '\x08' = ['\\', 'b'] from rfl]
            simp only [List.cons_append, List.nil_append]
            rw [parseStringAux, if_neg (by decide : ¬('\\' : Char) = '"'), if_pos rfl, parseStrEsc,
              if_neg (by decide : ¬('b' : Char) = 'u'),
              show unescapeChar 'b' = some '\x08' from rfl, ih]
            rfl
          · by_cases h5 : c = '\t'
            · subst h5
              rw [show escChar '\t' = ['\\', 't'] from rfl]
              simp only [List.cons_append, List.nil_append]
              rw [parseStringAux, if_neg (by decide : ¬('\\' : Char) = '"'), if_pos rfl,
                parseStrEsc, if_neg (by decide : ¬('t' : Char) = 'u'),
                show unescapeChar 't' = some '\t' from rfl, ih]
              rfl
            · by_cases h6 : c = '\n'
              · subst h6
                rw [show escChar '\n' = ['\\', 'n'] from rfl]
                simp only [List.cons_append, List.nil_append]
                rw [parseStringAux, if_neg (by decide : ¬('\\' : Char) = '"'), if_pos rfl,
                  parseStrEsc, if_neg (by decide : ¬('n' : Char) = 'u'),
                  show unescapeChar 'n' = some '\n' from rfl, ih]
                rfl
              · by_cases h7 : c = '\x0c'
                · subst h7
                  rw [show escChar '\x0c' = ['\\', 'f'] from rfl]
                  simp only [List.cons_append, List.nil_append]
                  rw [parseStringAux, if_neg (by decide : ¬('\\' : Char) = '"'), if_pos rfl,
                    parseStrEsc, if_neg (by decide : ¬('f' : Char) = 'u'),
                    show unescapeChar 'f' = some '\x0c' from rfl, ih]
                  rfl
                · by_cases h8 : c = '\r'
                  · subst h8
                    rw [show escChar '\r' = ['\\', 'r'] from rfl]
                    simp only [List.cons_append, List.nil_append]
                    rw [parseStringAux, if_neg (by decide : ¬('\\' : Char) = '"'), if_pos rfl,
                      parseStrEsc, if_neg (by decide : ¬('r' : Char) = 'u'),
                      show unescapeChar 'r' = some '\r' from rfl, ih]
                    rfl
                  · by_cases h9 : c.toNat < 0x10000
                    · have hv := char_valid_cases c
                      rw [escChar, if_neg h1, if_neg h2, if_neg h3, if_neg h4, if_neg h5,
                        if_neg h6, if_neg h7, if_neg h8, if_pos h9]
                      simp only [toHex4, List.cons_append, List.nil_append]
                      rw [parseStringAux, if_neg (by decide : ¬('\\' : Char) = '"'), if_pos rfl,
                        parseStrEsc, if_pos rfl, parseStrU,
                        hex4_toHex4 c.toNat (by omega), Option.some_bind]
                      rw [if_neg (by omega : ¬(0xd800 ≤ c.toNat ∧ c.toNat ≤ 0xdbff)),
                        if_neg (by omega : ¬(0xdc00 ≤ c.toNat ∧ c.toNat ≤ 0xdfff)),
                        chrOf_toNat, Option.some_bind, ih]
                      rfl
                    · have hv := char_valid_cases c
                      have hlt : c.toNat < 1114112 := by omega
                      rw [escChar, if_neg h1, if_neg h2, if_neg h3, if_neg h4, if_neg h5,
                        if_neg h6, if_neg h7, if_neg h8, if_neg h9]
                      simp only [toHex4, List.cons_append, List.nil_append]
                      rw [parseStringAux, if_neg (by decide : ¬('\\' : Char) = '"'), if_pos rfl,
                        parseStrEsc, if_pos rfl, parseStrU,
                        hex4_toHex4 (0xd800 + (c.toNat - 0x10000) / 0x400) (by omega),
                        Option.some_bind]
                      rw [if_pos (by omega :
                        0xd800 ≤ 0xd800 + (c.toNat - 0x10000) / 0x400 ∧
                          0xd800 + (c.toNat - 0x10000) / 0x400 ≤ 0xdbff)]
                      rw [parseStrU2, if_pos (⟨rfl, rfl⟩ : ('\\' : Char) = '\\' ∧ ('u' : Char) = 'u'),
                        hex4_toHex4 (0xdc00 + (c.toNat - 0x10000) % 0x400) (by omega),
                        Option.some_bind]
                      rw [if_pos (by omega :
                        0xdc00 ≤ 0xdc00 + (c.toNat - 0x10000) % 0x400 ∧
                          0xdc00 + (c.toNat - 0x10000) % 0x400 ≤ 0xdfff)]
                      rw [show 0x10000 + (0xd800 + (c.toNat - 0x10000) / 0x400 - 0xd800) * 0x400 +
                          (0xdc00 + (c.toNat - 0x10000) % 0x400 - 0xdc00) = c.toNat by omega]
                      rw [chrOf_toNat, Option.some_bind, ih]
                      rfl

/- Shape of printed values: first and last characters. -/

theorem dumps_head (ind : Option Nat) (lvl : Nat) (j : Json) :
    ∃ c t, pyDumpsAux ind lvl j = c :: t ∧
      (c = 'n' ∨ c = 't' ∨ c = 'f' ∨ c = '"' ∨ c = '[' ∨ c = '\x7b' ∨ c = '-' ∨ isDigitC c = true) := by
  cases j with
  | null => exact ⟨'n', ['u', 'l', 'l'], rfl, by simp⟩
  | bool b =>
    cases b with
    | false => exact ⟨'f', ['a', 'l', 's', 'e'], rfl, by simp⟩
    | true => exact ⟨'t', ['r', 'u', 'e'], rfl, by simp⟩
  | num i =>
    obtain ⟨c, t, he, hd, _, _, _⟩ := natDigits_spec i.natAbs
    rw [show pyDumpsAux ind lvl (.num i) = intDigits i from rfl, intDigits]
    by_cases hi : i < 0
    · exact ⟨'-', natDigits i.natAbs, by rw [if_pos hi], by simp⟩
    · exact ⟨c, t, by rw [if_neg hi, he], by simp [hd]⟩
  | str s => exact ⟨'"', escStr s ++ ['"'], rfl, by simp⟩
  | arr xs =>
    cases xs with
    | nil => exact ⟨'[', [']'], rfl, by simp⟩
    | cons v vs =>
      exact ⟨'[', openWs ind (lvl + indentW ind) ++ pyDumpsAux ind (lvl + indentW ind) v ++
        arrTail ind (lvl + indentW ind) vs ++ closeWs ind lvl ++ [']'], rfl, by simp⟩
  | obj kvs =>
    cases kvs with
    | nil => exact ⟨'\x7b', ['\x7d'], rfl, by simp⟩
    | cons kv kvs =>
      exact ⟨'\x7b', openWs ind (lvl + indentW ind) ++ memberStr ind (lvl + indentW ind) kv ++
        objTail ind (lvl + indentW ind) kvs ++ closeWs ind lvl ++ ['\x7d'], rfl, by simp⟩

theorem headChar_facts {c : Char}
    (h : c = 'n' ∨ c = 't' ∨ c = 'f' ∨ c = '"' ∨ c = '[' ∨ c = '\x7b' ∨ c = '-' ∨ isDigitC c = true) :
    isJsonWs c = false ∧ isPyWs c = false ∧ c ≠ ']' ∧ c ≠ '\x7d' ∧ c ≠ '\x60' := by
  rcases h with h | h | h | h | h | h | h | h
  · subst h; refine ⟨by decide, by decide, by decide, by decide, by decide⟩
  · subst h; refine ⟨by decide, by decide, by decide, by decide, by decide⟩
  · subst h; refine ⟨by decide, by decide, by decide, by decide, by decide⟩
  · subst h; refine ⟨by decide, by decide, by decide, by decide, by decide⟩
  · subst h; refine ⟨by decide, by decide, by decide, by decide, by decide⟩
  · subst h; refine ⟨by decide, by decide, by decide, by decide, by decide⟩
  · subst h; refine ⟨by decide, by decide, by decide, by decide, by decide⟩
  · simp only [isDigitC, Bool.and_eq_true, decide_eq_true_eq] at h
    refine ⟨?_, ?_, ?_, ?_, ?_⟩
    · simp only [isJsonWs]
      simp only [Bool.or_eq_false_iff, decide_eq_false_iff_not]
      omega
    · simp only [isPyWs, isJsonWs]
      simp only [Bool.or_eq_false_iff, decide_eq_false_iff_not, Bool.and_eq_false_iff]
      refine ⟨⟨⟨⟨⟨⟨⟨⟨⟨⟨⟨⟨⟨?_, ?_⟩, ?_⟩, ?_⟩, ?_⟩, ?_⟩, ?_⟩, ?_⟩, ?_⟩, ?_⟩, ?_⟩, ?_⟩, ?_⟩, ?_⟩ <;>
        omega
    · exact char_ne_of_toNat (by rw [show (']' : Char).toNat = 93 from rfl]; omega)
    · exact char_ne_of_toNat (by rw [show ('\x7d' : Char).toNat = 125 from rfl]; omega)
    · exact char_ne_of_toNat (by rw [show ('\x60' : Char).toNat = 96 from rfl]; omega)

theorem skipJsonWs_dumps (ind : Option Nat) (lvl : Nat) (j : Json) (X : LC) :
    skipJsonWs (pyDumpsAux ind lvl j ++ X) = pyDumpsAux ind lvl j ++ X := by
  obtain ⟨c, t, he, hh⟩ := dumps_head ind lvl j
  rw [he, List.cons_append]
  exact skipJsonWs_cons_neg _ _ (headChar_facts hh).1

theorem dropLeadPyWs_dumps (ind : Option Nat) (lvl : Nat) (j : Json) (X : LC) :
    dropLeadPyWs (pyDumpsAux ind lvl j ++ X) = pyDumpsAux ind lvl j ++ X := by
  obtain ⟨c, t, he, hh⟩ := dumps_head ind lvl j
  rw [he, List.cons_append]
  exact dropLeadPyWs_cons_neg _ _ (headChar_facts hh).2.1

theorem rev_head_of_eq_append_one {res l : LC} {x : Char} (he : res = l ++ [x])
    (hx : isPyWs x = false) : ∃ c t, res.reverse = c :: t ∧ isPyWs c = false :=
  ⟨x, l.reverse, by rw [he]; simp, hx⟩

theorem dumps_rev_head (ind : Option Nat) (lvl : Nat) (j : Json) :
    ∃ c t, (pyDumpsAux ind lvl j).reverse = c :: t ∧ isPyWs c = false := by
  cases j with
  | null => exact ⟨'l', ['l', 'u', 'n'], by rw [show pyDumpsAux ind lvl .null = ['n', 'u', 'l', 'l'] from rfl]; rfl, by decide⟩
  | bool b =>
    cases b with
    | false => exact ⟨'e', ['s', 'l', 'a', 'f'],
        by rw [show pyDumpsAux ind lvl (.bool false) = ['f', 'a', 'l', 's', 'e'] from rfl]; rfl,
        by decide⟩
    | true => exact ⟨'e', ['u', 'r', 't'],
        by rw [show pyDumpsAux ind lvl (.bool true) = ['t', 'r', 'u', 'e'] from rfl]; rfl,
        by decide⟩
  | num i =>
    obtain ⟨c, t, he, hd, hall, _, _⟩ := natDigits_spec i.natAbs
    have hmem : ∀ x ∈ natDigits i.natAbs, isDigitC x = true := by
      rw [he]
      intro x hx
      rcases List.mem_cons.1 hx with h | h
      · subst h; exact hd
      · exact hall x h
    have hne : natDigits i.natAbs ≠ [] := by rw [he]; simp
    obtain ⟨d, u, hr⟩ : ∃ d u, (natDigits i.natAbs).reverse = d :: u := by
      cases hrr : (natDigits i.natAbs).reverse with
      | nil => exact absurd (List.reverse_eq_nil_iff.1 hrr) hne
      | cons d u => exact ⟨d, u, rfl⟩
    have hdig : isDigitC d = true := by
      have : d ∈ (natDigits i.natAbs).reverse := by rw [hr]; simp
      exact hmem d (List.mem_reverse.1 this)
    have hdw : isPyWs d = false := by
      simp only [isDigitC, Bool.and_eq_true, decide_eq_true_eq] at hdig
      simp only [isPyWs, isJsonWs]
      simp only [Bool.or_eq_false_iff, decide_eq_false_iff_not, Bool.and_eq_false_iff]
      refine ⟨⟨⟨⟨⟨⟨⟨⟨⟨⟨⟨⟨⟨?_, ?_⟩, ?_⟩, ?_⟩, ?_⟩, ?_⟩, ?_⟩, ?_⟩, ?_⟩, ?_⟩, ?_⟩, ?_⟩, ?_⟩, ?_⟩ <;>
        omega
    rw [show pyDumpsAux ind lvl (.num i) = intDigits i from rfl, intDigits]
    by_cases hi : i < 0
    · rw [if_pos hi, List.reverse_cons, hr]
      exact ⟨d, u ++ ['-'], rfl, hdw⟩
    · rw [if_neg hi, hr]
      exact ⟨d, u, rfl, hdw⟩
  | str s =>
    refine rev_head_of_eq_append_one (l := '"' :: escStr s) (x := '"') ?_ (by decide)
    show '"' :: (escStr s ++ ['"']) = _
    simp
  | arr xs =>
    cases xs with
    | nil =>
      exact ⟨']', ['['], by rw [show pyDumpsAux ind lvl (.arr []) = ['[', ']'] from rfl]; rfl, by decide⟩
    | cons v vs =>
      refine rev_head_of_eq_append_one (l := '[' :: (openWs ind (lvl + indentW ind) ++
        pyDumpsAux ind (lvl + indentW ind) v ++ arrTail ind (lvl + indentW ind) vs ++
        closeWs ind lvl)) (x := ']') ?_ (by decide)
      show '[' :: (openWs ind (lvl + indentW ind) ++ pyDumpsAux ind (lvl + indentW ind) v ++
        arrTail ind (lvl + indentW ind) vs ++ closeWs ind lvl ++ [']']) = _
      simp
  | obj kvs =>
    cases kvs with
    | nil =>
      exact ⟨'\x7d', ['\x7b'], by rw [show pyDumpsAux ind lvl (.obj []) = ['\x7b', '\x7d'] from rfl]; rfl, by decide⟩
    | cons kv kvs =>
      refine rev_head_of_eq_append_one (l := '\x7b' :: (openWs ind (lvl + indentW ind) ++
        memberStr ind (lvl + indentW ind) kv ++ objTail ind (lvl + indentW ind) kvs ++
        closeWs ind lvl)) (x := '\x7d') ?_ (by decide)
      show '\x7b' :: (openWs ind (lvl + indentW ind) ++ memberStr ind (lvl + indentW ind) kv ++
        objTail ind (lvl + indentW ind) kvs ++ closeWs ind lvl ++ ['\x7d']) = _
      simp

theorem dropTrailPyWs_dumps_append (ind : Option Nat) (lvl : Nat) (j : Json) (l : LC)
    (hl : ∀ c ∈ l, isPyWs c = true) :
    dropTrailPyWs (pyDumpsAux ind lvl j ++ l) = pyDumpsAux ind lvl j := by
  rw [dropTrailPyWs, List.reverse_append]
  rw [dropLeadPyWs_append_ws _ _ (fun c hc => hl c (List.mem_reverse.1 hc))]
  obtain ⟨c, t, he, hc⟩ := dumps_rev_head ind lvl j
  rw [he, dropLeadPyWs_cons_neg _ _ hc, ← he, List.reverse_reverse]

/- Dict-construction lemmas: with pairwise-distinct keys, `dict(pairs)`
keeps the pairs untouched. -/

theorem dictInsert_notMem (d : List (LC × Json)) (k : LC) (v : Json) (h : k ∉ keysOf d) :
    dictInsert d k v = d ++ [(k, v)] := by
  induction d with
  | nil => rfl
  | cons kv rest ih =>
    simp only [keysOf, List.map_cons, List.mem_cons] at h
    push_neg at h
    obtain ⟨h1, h2⟩ := h
    cases kv with
    | mk k' v' =>
      simp only [dictInsert, if_neg (fun he : k' = k => h1 he.symm), List.cons_append]
      congr 1
      exact ih (by simpa [keysOf] using h2)

theorem foldl_dictInsert_append (kvs : List (LC × Json)) :
    ∀ acc : List (LC × Json), (keysOf acc ++ keysOf kvs).Nodup →
      kvs.foldl (fun d kv => dictInsert d kv.1 kv.2) acc = acc ++ kvs := by
  induction kvs with
  | nil => intro acc _; simp
  | cons kv rest ih =>
    intro acc h
    simp only [List.foldl_cons]
    have hmemkv : kv.1 ∈ keysOf (kv :: rest) := by simp [keysOf]
    have hk : kv.1 ∉ keysOf acc := by
      intro hmem
      rw [List.nodup_append] at h
      exact h.2.2 hmem hmemkv
    rw [dictInsert_notMem acc kv.1 kv.2 hk]
    have h' : (keysOf (acc ++ [kv]) ++ keysOf rest).Nodup := by
      have e1 : keysOf (acc ++ [kv]) = keysOf acc ++ [kv.1] := by simp [keysOf]
      have e2 : keysOf (kv :: rest) = kv.1 :: keysOf rest := by simp [keysOf]
      rw [e1, List.append_assoc]
      rw [e2] at h
      exact h
    rw [ih (acc ++ [kv]) h', List.append_assoc]
    rfl

theorem foldKVs_nodup (kvs : List (LC × Json)) (h : (keysOf kvs).Nodup) : foldKVs kvs = kvs := by
  have := foldl_dictInsert_append kvs [] (by simpa [keysOf] using h)
  simpa [foldKVs] using this

/- Printed length dominates the size measure, so `pyLoads`'s fuel of
`length + 1` is always sufficient on printed output. -/

mutual

theorem dumps_len (ind : Option Nat) (lvl : Nat) : ∀ j : Json, jsize j ≤ (pyDumpsAux ind lvl j).length
  | .null => by simp [pyDumpsAux, jsize]
  | .bool b => by cases b <;> simp [pyDumpsAux, jsize]
  | .num i => by
    obtain ⟨c, t, he, _, _, _, _⟩ := natDigits_spec i.natAbs
    rw [show pyDumpsAux ind lvl (.num i) = intDigits i from rfl, intDigits, jsize]
    by_cases hi : i < 0
    · rw [if_pos hi, he]; simp
    · rw [if_neg hi, he]; simp
  | .str s => by simp [pyDumpsAux, jsize]
  | .arr [] => by simp [pyDumpsAux, jsize, elsSize]
  | .arr (v :: vs) => by
    have h1 := dumps_len ind (lvl + indentW ind) v
    have h2 := arrTail_len ind (lvl + indentW ind) vs
    simp only [pyDumpsAux, jsize, elsSize, List.length_cons, List.length_append]
    omega
  | .obj [] => by simp [pyDumpsAux, jsize, memSize]
  | .obj (kv :: kvs) => by
    have h1 := member_len ind (lvl + indentW ind) kv
    have h2 := objTail_len ind (lvl + indentW ind) kvs
    simp only [pyDumpsAux, jsize, memSize, List.length_cons, List.length_append]
    omega

theorem arrTail_len (ind : Option Nat) (lvl : Nat) :
    ∀ vs : List Json, elsSize vs ≤ (arrTail ind lvl vs).length
  | [] => by simp [arrTail, elsSize]
  | v :: vs => by
    have h1 := dumps_len ind lvl v
    have h2 := arrTail_len ind lvl vs
    simp only [arrTail, elsSize, List.length_cons, List.length_append]
    omega

theorem member_len (ind : Option Nat) (lvl : Nat) :
    ∀ kv : LC × Json, 1 + jsize kv.2 ≤ (memberStr ind lvl kv).length
  | (k, v) => by
    have h1 := dumps_len ind lvl v
    simp only [memberStr, List.length_cons, List.length_append]
    omega

theorem objTail_len (ind : Option Nat) (lvl : Nat) :
    ∀ kvs : List (LC × Json), memSize kvs ≤ (objTail ind lvl kvs).length
  | [] => by simp [objTail, memSize]
  | kv :: kvs => by
    have h1 := member_len ind lvl kv
    have h2 := objTail_len ind lvl kvs
    simp only [objTail, memSize, List.length_cons, List.length_append]
    omega

end

/- Helper lemmas for the main parse-of-print theorem. -/

theorem stripPre_append (lit rest : LC) : stripPre lit (lit ++ rest) = some rest := by
  induction lit with
  | nil => rfl
  | cons p ps ih => simp [stripPre, ih]

theorem jsize_pos (j : Json) : 1 ≤ jsize j := by
  cases j <;> simp [jsize]

theorem restOk_numTailOk (r : LC) (h : restOk r) : numTailOk r := by
  match r with
  | [] => trivial
  | c :: cs =>
    rcases h with h | h | h | h
    · simp only [isJsonWs, Bool.or_eq_true, decide_eq_true_eq] at h
      refine ⟨?_, ?_, ?_, ?_⟩
      · simp only [isDigitC, Bool.and_eq_false_iff, decide_eq_false_iff_not]
        omega
      · exact char_ne_of_toNat (by rw [show ('.' : Char).toNat = 46 from rfl]; omega)
      · exact char_ne_of_toNat (by rw [show ('e' : Char).toNat = 101 from rfl]; omega)
      · exact char_ne_of_toNat (by rw [show ('E' : Char).toNat = 69 from rfl]; omega)
    · subst h; exact ⟨by decide, by decide, by decide, by decide⟩
    · subst h; exact ⟨by decide, by decide, by decide, by decide⟩
    · subst h; exact ⟨by decide, by decide, by decide, by decide⟩

theorem restOk_closeWs (ind : Option Nat) (lvl : Nat) (br : Char) (rest : LC)
    (hbr : br = ']' ∨ br = '\x7d') : restOk (closeWs ind lvl ++ br :: rest) := by
  cases ind with
  | none =>
    show restOk (br :: rest)
    rcases hbr with h | h <;> subst h
    · exact Or.inr (Or.inr (Or.inl rfl))
    · exact Or.inr (Or.inr (Or.inr rfl))
  | some w => exact Or.inl (by decide)

theorem digit_not_keyword {c : Char} (h : isDigitC c = true) :
    c ≠ 'n' ∧ c ≠ 't' ∧ c ≠ 'f' ∧ c ≠ '"' ∧ c ≠ '\x7b' ∧ c ≠ '[' ∧ c ≠ '-' := by
  simp only [isDigitC, Bool.and_eq_true, decide_eq_true_eq] at h
  refine ⟨?_, ?_, ?_, ?_, ?_, ?_, ?_⟩
  · exact char_ne_of_toNat (by rw [show ('n' : Char).toNat = 110 from rfl]; omega)
  · exact char_ne_of_toNat (by rw [show ('t' : Char).toNat = 116 from rfl]; omega)
  · exact char_ne_of_toNat (by rw [show ('f' : Char).toNat = 102 from rfl]; omega)
  · exact char_ne_of_toNat (by rw [show ('"' : Char).toNat = 34 from rfl]; omega)
  · exact char_ne_of_toNat (by rw [show ('\x7b' : Char).toNat = 123 from rfl]; omega)
  · exact char_ne_of_toNat (by rw [show ('[' : Char).toNat = 91 from rfl]; omega)
  · exact char_ne_of_toNat (by rw [show ('-' : Char).toNat = 45 from rfl]; omega)

theorem parseVal_cons (fuel : Nat) (s0 : LC) (c : Char) (r : LC) (h : skipJsonWs s0 = c :: r) :
    parseVal (fuel + 1) s0 =
      (if c = 'n' then (stripPre ['u', 'l', 'l'] r).map (fun r2 => (.null, r2))
      else if c = 't' then (stripPre ['r', 'u', 'e'] r).map (fun r2 => (.bool true, r2))
      else if c = 'f' then (stripPre ['a', 'l', 's', 'e'] r).map (fun r2 => (.bool false, r2))
      else if c = '"' then (parseStringAux r).map (fun p => (.str p.1, p.2))
      else if c = '\x7b' then
        if (skipJsonWs r).head? = some '\x7d' then some (.obj [], (skipJsonWs r).tail)
        else (parseMembers fuel (skipJsonWs r)).map (fun p => (.obj (foldKVs p.1), p.2))
      else if c = '[' then
        if (skipJsonWs r).head? = some ']' then some (.arr [], (skipJsonWs r).tail)
        else (parseElems fuel (skipJsonWs r)).map (fun p => (.arr p.1, p.2))
      else if c = '-' then (parseUNum r).map (fun p => (.num (-(p.1 : Int)), p.2))
      else (parseUNum (c :: r)).map (fun p => (.num (p.1 : Int), p.2))) := by
  rw [parseVal, h]

theorem restOk_arrTail_close (ind : Option Nat) (lvl lvl2 : Nat) (vs : List Json) (rest : LC) :
    restOk (arrTail ind lvl2 vs ++ (closeWs ind lvl ++ ']' :: rest)) := by
  cases vs with
  | nil =>
    rw [show arrTail ind lvl2 [] = [] from rfl, List.nil_append]
    exact restOk_closeWs ind lvl ']' rest (Or.inl rfl)
  | cons v vs =>
    rw [show arrTail ind lvl2 (v :: vs) =
      ',' :: (sepWs ind lvl2 ++ pyDumpsAux ind lvl2 v ++ arrTail ind lvl2 vs) from rfl,
      List.cons_append]
    exact Or.inr (Or.inl rfl)

theorem restOk_objTail_close (ind : Option Nat) (lvl lvl2 : Nat) (kvs : List (LC × Json)) (rest : LC) :
    restOk (objTail ind lvl2 kvs ++ (closeWs ind lvl ++ '\x7d' :: rest)) := by
  cases kvs with
  | nil =>
    rw [show objTail ind lvl2 [] = [] from rfl, List.nil_append]
    exact restOk_closeWs ind lvl '\x7d' rest (Or.inr rfl)
  | cons kv kvs =>
    rw [show objTail ind lvl2 (kv :: kvs) =
      ',' :: (sepWs ind lvl2 ++ memberStr ind lvl2 kv ++ objTail ind lvl2 kvs) from rfl,
      List.cons_append]
    exact Or.inr (Or.inl rfl)

/-- Parse-of-print, by induction on fuel: scanning a printed value (with any
leading JSON whitespace and a legal continuation) recovers exactly that
value, for both the compact and the indented printer, provided every object
in the value has distinct keys (the values Python dicts can represent). -/
theorem parse_dumps_all : ∀ fuel : Nat,
    (∀ (ind : Option Nat) (lvl : Nat) (j : Json) (ws0 rest : LC),
      (∀ c ∈ ws0, isJsonWs c = true) → jwf j = true → jsize j ≤ fuel → restOk rest →
      parseVal fuel (ws0 ++ (pyDumpsAux ind lvl j ++ rest)) = some (j, rest)) ∧
    (∀ (ind : Option Nat) (lvl lvl2 : Nat) (v : Json) (vs : List Json) (ws0 rest : LC),
      (∀ c ∈ ws0, isJsonWs c = true) → elsWf (v :: vs) = true → elsSize (v :: vs) ≤ fuel →
      restOk rest →
      parseElems fuel (ws0 ++ (pyDumpsAux ind lvl2 v ++ (arrTail ind lvl2 vs ++
        (closeWs ind lvl ++ ']' :: rest)))) = some (v :: vs, rest)) ∧
    (∀ (ind : Option Nat) (lvl lvl2 : Nat) (k : LC) (v : Json) (kvs : List (LC × Json)) (ws0 rest : LC),
      (∀ c ∈ ws0, isJsonWs c = true) → memsWf ((k, v) :: kvs) = true →
      memSize ((k, v) :: kvs) ≤ fuel → restOk rest →
      parseMembers fuel (ws0 ++ (memberStr ind lvl2 (k, v) ++ (objTail ind lvl2 kvs ++
        (closeWs ind lvl ++ '\x7d' :: rest)))) = some ((k, v) :: kvs, rest)) := by
  intro fuel
  induction fuel with
  | zero =>
    refine ⟨?_, ?_, ?_⟩
    · intro ind lvl j ws0 rest _ _ hsz _
      have := jsize_pos j
      omega
    · intro ind lvl lvl2 v vs ws0 rest _ _ hsz _
      simp only [elsSize] at hsz
      omega
    · intro ind lvl lvl2 k v kvs ws0 rest _ _ hsz _
      simp only [memSize] at hsz
      omega
  | succ fuel ih =>
    obtain ⟨ihA, ihB, ihC⟩ := ih
    refine ⟨?_, ?_, ?_⟩
    · -- values
      intro ind lvl j ws0 rest hws hwf hsz hrest
      have hskip0 : skipJsonWs (ws0 ++ (pyDumpsAux ind lvl j ++ rest)) =
          pyDumpsAux ind lvl j ++ rest := by
        rw [skipJsonWs_append_ws _ _ hws, skipJsonWs_dumps]
      cases j with
      | null =>
        have hpr : pyDumpsAux ind lvl .null ++ rest = 'n' :: (['u', 'l', 'l'] ++ rest) := by
          rw [show pyDumpsAux ind lvl .null = ['n', 'u', 'l', 'l'] from rfl]
          rfl
        rw [parseVal_cons fuel _ 'n' (['u', 'l', 'l'] ++ rest) (by rw [hskip0, hpr])]
        rw [if_pos rfl, stripPre_append]
        rfl
      | bool b =>
        cases b with
        | true =>
          have hpr : pyDumpsAux ind lvl (.bool true) ++ rest = 't' :: (['r', 'u', 'e'] ++ rest) := by
            rw [show pyDumpsAux ind lvl (.bool true) = ['t', 'r', 'u', 'e'] from rfl]
            rfl
          rw [parseVal_cons fuel _ 't' (['r', 'u', 'e'] ++ rest) (by rw [hskip0, hpr])]
          rw [if_neg (by decide), if_pos rfl, stripPre_append]
          rfl
        | false =>
          have hpr : pyDumpsAux ind lvl (.bool false) ++ rest =
              'f' :: (['a', 'l', 's', 'e'] ++ rest) := by
            rw [show pyDumpsAux ind lvl (.bool false) = ['f', 'a', 'l', 's', 'e'] from rfl]
            rfl
          rw [parseVal_cons fuel _ 'f' (['a', 'l', 's', 'e'] ++ rest) (by rw [hskip0, hpr])]
          rw [if_neg (by decide), if_neg (by decide), if_pos rfl, stripPre_append]
          rfl
      | num i =>
        by_cases hi : i < 0
        · have hpr : pyDumpsAux ind lvl (.num i) ++ rest = '-' :: (natDigits i.natAbs ++ rest) := by
            rw [show pyDumpsAux ind lvl (.num i) = intDigits i from rfl, intDigits, if_pos hi]
            rfl
          rw [parseVal_cons fuel _ '-' (natDigits i.natAbs ++ rest) (by rw [hskip0, hpr])]
          rw [if_neg (by decide), if_neg (by decide), if_neg (by decide), if_neg (by decide),
            if_neg (by decide), if_neg (by decide), if_pos rfl]
          rw [parseUNum_natDigits _ _ (restOk_numTailOk rest hrest)]
          simp only [Option.map_some']
          rw [show (-(i.natAbs : Int)) = i by omega]
        · obtain ⟨c, t, he, hd, _, _, _⟩ := natDigits_spec i.natAbs
          obtain ⟨hn1, hn2, hn3, hn4, hn5, hn6, hn7⟩ := digit_not_keyword hd
          have hpr : pyDumpsAux ind lvl (.num i) ++ rest = c :: (t ++ rest) := by
            rw [show pyDumpsAux ind lvl (.num i) = intDigits i from rfl, intDigits, if_neg hi, he]
            rfl
          rw [parseVal_cons fuel _ c (t ++ rest) (by rw [hskip0, hpr])]
          rw [if_neg hn1, if_neg hn2, if_neg hn3, if_neg hn4, if_neg hn5, if_neg hn6, if_neg hn7]
          rw [show (c :: (t ++ rest)) = natDigits i.natAbs ++ rest by rw [he]; rfl]
          rw [parseUNum_natDigits _ _ (restOk_numTailOk rest hrest)]
          simp only [Option.map_some']
          rw [show ((i.natAbs : Nat) : Int) = i by omega]
      | str s =>
        have hpr : pyDumpsAux ind lvl (.str s) ++ rest = '"' :: (escStr s ++ '"' :: rest) := by
          rw [show pyDumpsAux ind lvl (.str s) = '"' :: (escStr s ++ ['"']) from rfl]
          simp
        rw [parseVal_cons fuel _ '"' (escStr s ++ '"' :: rest) (by rw [hskip0, hpr])]
        rw [if_neg (by decide), if_neg (by decide), if_neg (by decide), if_pos rfl]
        rw [parseStringAux_escStr]
        rfl
      | arr xs =>
        cases xs with
        | nil =>
          have hpr : pyDumpsAux ind lvl (.arr []) ++ rest = '[' :: (']' :: rest) := by
            rw [show pyDumpsAux ind lvl (.arr []) = ['[', ']'] from rfl]
            rfl
          rw [parseVal_cons fuel _ '[' (']' :: rest) (by rw [hskip0, hpr])]
          rw [if_neg (by decide), if_neg (by decide), if_neg (by decide), if_neg (by decide),
            if_neg (by decide), if_pos rfl]
          rw [show skipJsonWs (']' :: rest) = ']' :: rest from skipJsonWs_cons_neg _ _ (by decide)]
          simp
        | cons v vs =>
          simp only [jwf] at hwf
          have hsz' : elsSize (v :: vs) ≤ fuel := by
            simp only [jsize] at hsz
            omega
          have hpr : pyDumpsAux ind lvl (.arr (v :: vs)) ++ rest =
              '[' :: (openWs ind (lvl + indentW ind) ++ (pyDumpsAux ind (lvl + indentW ind) v ++
                (arrTail ind (lvl + indentW ind) vs ++ (closeWs ind lvl ++ ']' :: rest)))) := by
            rw [show pyDumpsAux ind lvl (.arr (v :: vs)) =
              '[' :: (openWs ind (lvl + indentW ind) ++ pyDumpsAux ind (lvl + indentW ind) v ++
                arrTail ind (lvl + indentW ind) vs ++ closeWs ind lvl ++ [']']) from rfl]
            simp [List.append_assoc]
          rw [parseVal_cons fuel _ '[' _ (by rw [hskip0, hpr])]
          rw [if_neg (by decide), if_neg (by decide), if_neg (by decide), if_neg (by decide),
            if_neg (by decide), if_pos rfl]
          have hr1 : skipJsonWs (openWs ind (lvl + indentW ind) ++
              (pyDumpsAux ind (lvl + indentW ind) v ++ (arrTail ind (lvl + indentW ind) vs ++
                (closeWs ind lvl ++ ']' :: rest)))) =
              pyDumpsAux ind (lvl + indentW ind) v ++ (arrTail ind (lvl + indentW ind) vs ++
                (closeWs ind lvl ++ ']' :: rest)) := by
            rw [skipJsonWs_append_ws _ _ (openWs_ws ind (lvl + indentW ind)), skipJsonWs_dumps]
          rw [hr1]
          obtain ⟨ch, th, heh, hhh⟩ := dumps_head ind (lvl + indentW ind) v
          have hhd : (pyDumpsAux ind (lvl + indentW ind) v ++ (arrTail ind (lvl + indentW ind) vs ++
              (closeWs ind lvl ++ ']' :: rest))).head? = some ch := by
            rw [heh]
            rfl
          rw [hhd, if_neg (fun hq => (headChar_facts hhh).2.2.1 (Option.some.inj hq))]
          have hB := ihB ind lvl (lvl + indentW ind) v vs [] rest
            (by intro c hc; simp at hc) hwf hsz' hrest
          rw [List.nil_append] at hB
          rw [hB]
          rfl
      | obj kvs =>
        cases kvs with
        | nil =>
          have hpr : pyDumpsAux ind lvl (.obj []) ++ rest = '\x7b' :: ('\x7d' :: rest) := by
            rw [show pyDumpsAux ind lvl (.obj []) = ['\x7b', '\x7d'] from rfl]
            rfl
          rw [parseVal_cons fuel _ '\x7b' ('\x7d' :: rest) (by rw [hskip0, hpr])]
          rw [if_neg (by decide), if_neg (by decide), if_neg (by decide), if_neg (by decide),
            if_pos rfl]
          rw [show skipJsonWs ('\x7d' :: rest) = '\x7d' :: rest from
            skipJsonWs_cons_neg _ _ (by decide)]
          simp
        | cons kv kvs =>
          obtain ⟨k, v⟩ := kv
          simp only [jwf, Bool.and_eq_true, decide_eq_true_eq] at hwf
          obtain ⟨hnd, hmw⟩ := hwf
          have hsz' : memSize ((k, v) :: kvs) ≤ fuel := by
            simp only [jsize] at hsz
            omega
          have hpr : pyDumpsAux ind lvl (.obj ((k, v) :: kvs)) ++ rest =
              '\x7b' :: (openWs ind (lvl + indentW ind) ++ (memberStr ind (lvl + indentW ind) (k, v) ++
                (objTail ind (lvl + indentW ind) kvs ++ (closeWs ind lvl ++ '\x7d' :: rest)))) := by
            rw [show pyDumpsAux ind lvl (.obj ((k, v) :: kvs)) =
              '\x7b' :: (openWs ind (lvl + indentW ind) ++ memberStr ind (lvl + indentW ind) (k, v) ++
                objTail ind (lvl + indentW ind) kvs ++ closeWs ind lvl ++ ['\x7d']) from rfl]
            simp [List.append_assoc]
          rw [parseVal_cons fuel _ '\x7b' _ (by rw [hskip0, hpr])]
          rw [if_neg (by decide), if_neg (by decide), if_neg (by decide), if_neg (by decide),
            if_pos rfl]
          have hr1 : skipJsonWs (openWs ind (lvl + indentW ind) ++
              (memberStr ind (lvl + indentW ind) (k, v) ++ (objTail ind (lvl + indentW ind) kvs ++
                (closeWs ind lvl ++ '\x7d' :: rest)))) =
              memberStr ind (lvl + indentW ind) (k, v) ++ (objTail ind (lvl + indentW ind) kvs ++
                (closeWs ind lvl ++ '\x7d' :: rest)) := by
            rw [skipJsonWs_append_ws _ _ (openWs_ws ind (lvl + indentW ind))]
            rw [show memberStr ind (lvl + indentW ind) (k, v) =
              '"' :: (escStr k ++ '"' :: ':' :: ' ' :: pyDumpsAux ind (lvl + indentW ind) v) from rfl]
            rw [List.cons_append]
            exact skipJsonWs_cons_neg _ _ (by decide)
          rw [hr1]
          have hhd : (memberStr ind (lvl + indentW ind) (k, v) ++
              (objTail ind (lvl + indentW ind) kvs ++
                (closeWs ind lvl ++ '\x7d' :: rest))).head? = some '"' := by
            rw [show memberStr ind (lvl + indentW ind) (k, v) =
              '"' :: (escStr k ++ '"' :: ':' :: ' ' :: pyDumpsAux ind (lvl + indentW ind) v) from rfl]
            rfl
          rw [hhd, if_neg (by decide)]
          have hC := ihC ind lvl (lvl + indentW ind) k v kvs [] rest
            (by intro c hc; simp at hc) hmw hsz' hrest
          rw [List.nil_append] at hC
          rw [hC]
          simp only [Option.map_some']
          rw [foldKVs_nodup _ hnd]
    · -- array elements
      intro ind lvl lvl2 v vs ws0 rest hws hwf hsz hrest
      rw [parseElems]
      have hX := restOk_arrTail_close ind lvl lvl2 vs rest
      have hA := ihA ind lvl2 v ws0 (arrTail ind lvl2 vs ++ (closeWs ind lvl ++ ']' :: rest)) hws
        (by simp only [elsWf, Bool.and_eq_true] at hwf; exact hwf.1)
        (by simp only [elsSize] at hsz; omega) hX
      simp only [hA]
      cases vs with
      | nil =>
        have hskipX : skipJsonWs (arrTail ind lvl2 [] ++ (closeWs ind lvl ++ ']' :: rest)) =
            ']' :: rest := by
          rw [show arrTail ind lvl2 [] = [] from rfl, List.nil_append,
            skipJsonWs_append_ws _ _ (closeWs_ws ind lvl)]
          exact skipJsonWs_cons_neg _ _ (by decide)
        simp only [hskipX]
        simp
      | cons w ws2 =>
        have harr : arrTail ind lvl2 (w :: ws2) ++ (closeWs ind lvl ++ ']' :: rest) =
            ',' :: (sepWs ind lvl2 ++ (pyDumpsAux ind lvl2 w ++ (arrTail ind lvl2 ws2 ++
              (closeWs ind lvl ++ ']' :: rest)))) := by
          rw [show arrTail ind lvl2 (w :: ws2) =
            ',' :: (sepWs ind lvl2 ++ pyDumpsAux ind lvl2 w ++ arrTail ind lvl2 ws2) from rfl]
          simp [List.append_assoc]
        have hskipX : skipJsonWs (arrTail ind lvl2 (w :: ws2) ++ (closeWs ind lvl ++ ']' :: rest)) =
            ',' :: (sepWs ind lvl2 ++ (pyDumpsAux ind lvl2 w ++ (arrTail ind lvl2 ws2 ++
              (closeWs ind lvl ++ ']' :: rest)))) := by
          rw [harr]
          exact skipJsonWs_cons_neg _ _ (by decide)
        simp only [hskipX]
        rw [if_pos trivial]
        have hszw : elsSize (w :: ws2) ≤ fuel := by
          simp only [elsSize] at hsz ⊢
          omega
        have hwf2 : elsWf (w :: ws2) = true := by
          simp only [elsWf, Bool.and_eq_true] at hwf ⊢
          exact hwf.2
        have hB := ihB ind lvl lvl2 w ws2 (sepWs ind lvl2) rest (sepWs_ws ind lvl2) hwf2 hszw hrest
        rw [hB]
        rfl
    · -- object members
      intro ind lvl lvl2 k v kvs ws0 rest hws hwf hsz hrest
      rw [parseMembers]
      have hms : memberStr ind lvl2 (k, v) ++ (objTail ind lvl2 kvs ++
          (closeWs ind lvl ++ '\x7d' :: rest)) =
          '"' :: (escStr k ++ '"' :: (':' :: (' ' :: (pyDumpsAux ind lvl2 v ++
            (objTail ind lvl2 kvs ++ (closeWs ind lvl ++ '\x7d' :: rest)))))) := by
        rw [show memberStr ind lvl2 (k, v) =
          '"' :: (escStr k ++ '"' :: ':' :: ' ' :: pyDumpsAux ind lvl2 v) from rfl]
        simp [List.append_assoc]
      have hskip : skipJsonWs (ws0 ++ (memberStr ind lvl2 (k, v) ++ (objTail ind lvl2 kvs ++
          (closeWs ind lvl ++ '\x7d' :: rest)))) =
          '"' :: (escStr k ++ '"' :: (':' :: (' ' :: (pyDumpsAux ind lvl2 v ++
            (objTail ind lvl2 kvs ++ (closeWs ind lvl ++ '\x7d' :: rest)))))) := by
        rw [skipJsonWs_append_ws _ _ hws, hms]
        exact skipJsonWs_cons_neg _ _ (by decide)
      simp only [hskip]
      rw [if_pos trivial]
      simp only [parseStringAux_escStr]
      have hsk2 : skipJsonWs (':' :: (' ' :: (pyDumpsAux ind lvl2 v ++ (objTail ind lvl2 kvs ++
          (closeWs ind lvl ++ '\x7d' :: rest))))) =
          ':' :: (' ' :: (pyDumpsAux ind lvl2 v ++ (objTail ind lvl2 kvs ++
            (closeWs ind lvl ++ '\x7d' :: rest)))) :=
        skipJsonWs_cons_neg _ _ (by decide)
      simp only [hsk2]
      rw [if_pos trivial]
      have hXrest := restOk_objTail_close ind lvl lvl2 kvs rest
      have hA := ihA ind lvl2 v [' '] (objTail ind lvl2 kvs ++ (closeWs ind lvl ++ '\x7d' :: rest))
        (by intro c hc; simp at hc; subst hc; decide)
        (by simp only [memsWf, Bool.and_eq_true] at hwf; exact hwf.1)
        (by simp only [memSize] at hsz; omega) hXrest
      rw [List.singleton_append] at hA
      simp only [hA]
      cases kvs with
      | nil =>
        have hskipX : skipJsonWs (objTail ind lvl2 [] ++ (closeWs ind lvl ++ '\x7d' :: rest)) =
            '\x7d' :: rest := by
          rw [show objTail ind lvl2 [] = [] from rfl, List.nil_append,
            skipJsonWs_append_ws _ _ (closeWs_ws ind lvl)]
          exact skipJsonWs_cons_neg _ _ (by decide)
        simp only [hskipX]
        simp
      | cons kv2 kvs2 =>
        obtain ⟨k2, v2⟩ := kv2
        have hobj : objTail ind lvl2 ((k2, v2) :: kvs2) ++ (closeWs ind lvl ++ '\x7d' :: rest) =
            ',' :: (sepWs ind lvl2 ++ (memberStr ind lvl2 (k2, v2) ++ (objTail ind lvl2 kvs2 ++
              (closeWs ind lvl ++ '\x7d' :: rest)))) := by
          rw [show objTail ind lvl2 ((k2, v2) :: kvs2) =
            ',' :: (sepWs ind lvl2 ++ memberStr ind lvl2 (k2, v2) ++ objTail ind lvl2 kvs2) from rfl]
          simp [List.append_assoc]
        have hskipX : skipJsonWs (objTail ind lvl2 ((k2, v2) :: kvs2) ++
            (closeWs ind lvl ++ '\x7d' :: rest)) =
            ',' :: (sepWs ind lvl2 ++ (memberStr ind lvl2 (k2, v2) ++ (objTail ind lvl2 kvs2 ++
              (closeWs ind lvl ++ '\x7d' :: rest)))) := by
          rw [hobj]
          exact skipJsonWs_cons_neg _ _ (by decide)
        simp only [hskipX]
        rw [if_pos trivial]
        have hszkv : memSize ((k2, v2) :: kvs2) ≤ fuel := by
          simp only [memSize] at hsz ⊢
          omega
        have hwf2 : memsWf ((k2, v2) :: kvs2) = true := by
          simp only [memsWf, Bool.and_eq_true] at hwf ⊢
          exact hwf.2
        have hC := ihC ind lvl lvl2 k2 v2 kvs2 (sepWs ind lvl2) rest (sepWs_ws ind lvl2)
          hwf2 hszkv hrest
        rw [hC]
        rfl

/-- Round trip through the scanner: `json.loads(json.dumps(v, ...)) == v`
for values whose objects have pairwise-distinct keys. -/
theorem pyLoads_dumps (ind : Option Nat) (j : Json) (hwf : jwf j = true) :
    pyLoads (pyDumps ind j) = some j := by
  have hlen := dumps_len ind 0 j
  have hA := (parse_dumps_all ((pyDumps ind j).length + 1)).1 ind 0 j [] []
    (by intro c hc; simp at hc) hwf
    (by simp only [pyDumps] at hlen ⊢; omega) trivial
  rw [List.nil_append, List.append_nil] at hA
  rw [pyLoads]
  simp only [pyDumps] at hA ⊢
  simp only [hA]
  rw [show skipJsonWs [] = [] from rfl, if_pos rfl]

/- Substring-search lemmas for the fence regex. -/

theorem isPrefixOf_append_self (pat r : LC) : pat.isPrefixOf (pat ++ r) = true := by
  induction pat with
  | nil => simp [List.isPrefixOf]
  | cons p ps ih =>
    rw [List.cons_append]
    simp [List.isPrefixOf, ih]

theorem splitAtFirst_boundary (p : Char) (pt : LC) (pre r : LC) (hp : p ∉ pre) :
    splitAtFirst (p :: pt) (pre ++ ((p :: pt) ++ r)) = some (pre, r) := by
  induction pre with
  | nil =>
    rw [List.nil_append]
    rw [show (p :: pt) ++ r = p :: (pt ++ r) from rfl, splitAtFirst]
    rw [if_pos (show (p :: pt).isPrefixOf (p :: (pt ++ r)) = true from isPrefixOf_append_self _ _)]
    rw [show (p :: (pt ++ r)) = ((p :: pt) ++ r) from rfl, List.drop_left]
  | cons c pre2 ih =>
    have hpc : p ≠ c := fun he => hp (he ▸ List.mem_cons_self c pre2)
    rw [List.cons_append, splitAtFirst]
    have hnp : (p :: pt).isPrefixOf (c :: (pre2 ++ ((p :: pt) ++ r))) = false := by
      simp only [List.isPrefixOf, Bool.and_eq_false_iff]
      exact Or.inl (by simpa using hpc)
    rw [if_neg (by simp only [hnp]; decide)]
    rw [ih (fun hm => hp (List.mem_cons_of_mem c hm))]
    rfl

theorem splitAtFirst_none_of_notMem (p : Char) (pt s : LC) (h : p ∉ s) :
    splitAtFirst (p :: pt) s = none := by
  induction s with
  | nil => rfl
  | cons c t ih =>
    have hpc : p ≠ c := fun he => h (he ▸ List.mem_cons_self c t)
    rw [splitAtFirst]
    have hnp : (p :: pt).isPrefixOf (c :: t) = false := by
      simp only [List.isPrefixOf, Bool.and_eq_false_iff]
      exact Or.inl (by simpa using hpc)
    rw [if_neg (by simp only [hnp]; decide)]
    rw [ih (fun hm => h (List.mem_cons_of_mem c hm))]
    rfl

theorem dropLeadPyWs_cons_pos (c : Char) (s : LC) (h : isPyWs c = true) :
    dropLeadPyWs (c :: s) = dropLeadPyWs s := by
  simp [dropLeadPyWs, h]

theorem dropLeadPyWs_subset (s : LC) : ∀ x ∈ dropLeadPyWs s, x ∈ s := by
  induction s with
  | nil => intro x hx; simp [dropLeadPyWs] at hx
  | cons c t ih =>
    intro x hx
    by_cases hc : isPyWs c = true
    · rw [dropLeadPyWs_cons_pos _ _ hc] at hx
      exact List.mem_cons_of_mem c (ih x hx)
    · rw [dropLeadPyWs_cons_neg _ _ (by simpa using hc)] at hx
      exact hx

theorem dropLeadPyWs_append_cases (a b : LC) :
    dropLeadPyWs (a ++ b) = dropLeadPyWs a ++ b ∨
      (dropLeadPyWs a = [] ∧ dropLeadPyWs (a ++ b) = dropLeadPyWs b) := by
  induction a with
  | nil => exact Or.inr ⟨rfl, by rw [List.nil_append]⟩
  | cons c t ih =>
    by_cases hc : isPyWs c = true
    · rw [List.cons_append, dropLeadPyWs_cons_pos _ _ hc, dropLeadPyWs_cons_pos _ _ hc]
      exact ih
    · rw [List.cons_append, dropLeadPyWs_cons_neg _ _ (by simpa using hc),
        dropLeadPyWs_cons_neg _ _ (by simpa using hc)]
      exact Or.inl rfl

theorem dropTrailPyWs_append_one_ws (x : LC) (w : Char) (hw : isPyWs w = true) :
    dropTrailPyWs (x ++ [w]) = dropTrailPyWs x := by
  rw [dropTrailPyWs, dropTrailPyWs]
  rw [show (x ++ [w]).reverse = w :: x.reverse by simp]
  rw [dropLeadPyWs_cons_pos _ _ hw]

theorem findFence_fenced (pre mid post : LC) (hpre : '\x60' ∉ pre) (hmid : '\x60' ∉ mid) :
    findFence (fencedText pre mid post) = some (dropTrailPyWs (dropLeadPyWs mid)) := by
  rw [findFence, fencedText]
  have h1 : splitAtFirst fenceMarker
      (pre ++ (fenceMarker ++ ('\n' :: (mid ++ ('\n' :: (ticks ++ post)))))) =
      some (pre, '\n' :: (mid ++ ('\n' :: (ticks ++ post)))) := by
    rw [show fenceMarker = '\x60' :: ['\x60', '\x60', 'j', 's', 'o', 'n'] from rfl]
    exact splitAtFirst_boundary _ _ _ _ hpre
  simp only [h1]
  rw [dropLeadPyWs_cons_pos _ _ (by decide)]
  rcases dropLeadPyWs_append_cases mid ('\n' :: (ticks ++ post)) with hc | ⟨hnil, hc⟩
  · rw [hc]
    have hsp : splitAtFirst ticks (dropLeadPyWs mid ++ ('\n' :: (ticks ++ post))) =
        some (dropLeadPyWs mid ++ ['\n'], post) := by
      have : dropLeadPyWs mid ++ ('\n' :: (ticks ++ post)) =
          (dropLeadPyWs mid ++ ['\n']) ++ (ticks ++ post) := by simp
      rw [this, show ticks = '\x60' :: ['\x60', '\x60'] from rfl]
      refine splitAtFirst_boundary _ _ _ _ ?_
      intro hmem
      rcases List.mem_append.1 hmem with hm | hm
      · exact hmid (dropLeadPyWs_subset mid _ hm)
      · simp at hm
    simp only [hsp]
    rw [dropTrailPyWs_append_one_ws _ _ (by decide)]
  · rw [hc, dropLeadPyWs_cons_pos _ _ (by decide)]
    have htick : dropLeadPyWs (ticks ++ post) = ticks ++ post := by
      rw [show ticks ++ post = '\x60' :: (['\x60', '\x60'] ++ post) from rfl]
      exact dropLeadPyWs_cons_neg _ _ (by decide)
    rw [htick]
    have hsp : splitAtFirst ticks (ticks ++ post) = some ([], post) := by
      have : ticks ++ post = [] ++ (ticks ++ post) := rfl
      rw [this, show ticks = '\x60' :: ['\x60', '\x60'] from rfl]
      exact splitAtFirst_boundary _ _ _ _ (by simp)
    simp only [hsp]
    rw [hnil]

/- No backtick ever appears in printed output of backtick-free values, so a
printed document placed inside a fence cannot disturb the fence delimiters. -/

theorem hexDigit_ne_tick (k : Nat) (h : k < 16) : hexDigit k ≠ '\x60' := by
  interval_cases k <;> decide

theorem toHex4_no_tick (n : Nat) : '\x60' ∉ toHex4 n := by
  intro hm
  simp only [toHex4, List.mem_cons, List.not_mem_nil, or_false] at hm
  rcases hm with h | h | h | h <;>
    exact hexDigit_ne_tick _ (Nat.mod_lt _ (by omega)) h.symm

theorem escChar_no_tick (c : Char) (hc : c ≠ '\x60') : '\x60' ∉ escChar c := by
  rw [escChar]
  by_cases h1 : c = '"'
  · rw [if_pos h1]; decide
  · rw [if_neg h1]
    by_cases h2 : c = '\\'
    · rw [if_pos h2]; decide
    · rw [if_neg h2]
      by_cases h3 : 0x20 ≤ c.toNat ∧ c.toNat ≤ 0x7e
      · rw [if_pos h3]
        intro hm
        simp only [List.mem_singleton] at hm
        exact hc hm.symm
      · rw [if_neg h3]
        by_cases h4 : c = '\x08'
        · rw [if_pos h4]; decide
        · rw [if_neg h4]
          by_cases h5 : c = '\t'
          · rw [if_pos h5]; decide
          · rw [if_neg h5]
            by_cases h6 : c = '\n'
            · rw [if_pos h6]; decide
            · rw [if_neg h6]
              by_cases h7 : c = '\x0c'
              · rw [if_pos h7]; decide
              · rw [if_neg h7]
                by_cases h8 : c = '\r'
                · rw [if_pos h8]; decide
                · rw [if_neg h8]
                  by_cases h9 : c.toNat < 0x10000
                  · rw [if_pos h9]
                    intro hm
                    rcases List.mem_cons.1 hm with hm | hm
                    · exact absurd hm (by decide)
                    · rcases List.mem_cons.1 hm with hm | hm
                      · exact absurd hm (by decide)
                      · exact toHex4_no_tick _ hm
                  · rw [if_neg h9]
                    intro hm
                    rcases List.mem_cons.1 hm with hm | hm
                    · exact absurd hm (by decide)
                    · rcases List.mem_cons.1 hm with hm | hm
                      · exact absurd hm (by decide)
                      · rcases List.mem_append.1 hm with hm | hm
                        · exact toHex4_no_tick _ hm
                        · rcases List.mem_cons.1 hm with hm | hm
                          · exact absurd hm (by decide)
                          · rcases List.mem_cons.1 hm with hm | hm
                            · exact absurd hm (by decide)
                            · exact toHex4_no_tick _ hm

theorem escStr_no_tick (s : LC) (h : '\x60' ∉ s) : '\x60' ∉ escStr s := by
  induction s with
  | nil => simp [escStr]
  | cons c cs ih =>
    rw [escStr]
    intro hm
    rcases List.mem_append.1 hm with hm | hm
    · exact escChar_no_tick c
        (fun he => h (by rw [← he]; exact List.mem_cons_self c cs)) hm
    · exact ih (fun hm2 => h (List.mem_cons_of_mem c hm2)) hm

theorem natDigits_no_tick (n : Nat) : '\x60' ∉ natDigits n := by
  obtain ⟨c, t, he, hd, hall, _, _⟩ := natDigits_spec n
  rw [he]
  intro hm
  rcases List.mem_cons.1 hm with hm | hm
  · rw [← hm] at hd
    exact absurd hd (by decide)
  · exact absurd (hall _ hm) (by decide)

theorem intDigits_no_tick (i : Int) : '\x60' ∉ intDigits i := by
  rw [intDigits]
  by_cases hi : i < 0
  · rw [if_pos hi]
    intro hm
    rcases List.mem_cons.1 hm with hm | hm
    · exact absurd hm (by decide)
    · exact natDigits_no_tick _ hm
  · rw [if_neg hi]
    exact natDigits_no_tick _

theorem openWs_no_tick (ind : Option Nat) (lvl : Nat) : '\x60' ∉ openWs ind lvl :=
  fun hm => absurd (openWs_ws ind lvl _ hm) (by decide)

theorem sepWs_no_tick (ind : Option Nat) (lvl : Nat) : '\x60' ∉ sepWs ind lvl :=
  fun hm => absurd (sepWs_ws ind lvl _ hm) (by decide)

theorem closeWs_no_tick (ind : Option Nat) (lvl : Nat) : '\x60' ∉ closeWs ind lvl :=
  fun hm => absurd (closeWs_ws ind lvl _ hm) (by decide)

mutual

theorem dumps_no_tick (ind : Option Nat) (lvl : Nat) :
    ∀ j : Json, jNoTick j = true → '\x60' ∉ pyDumpsAux ind lvl j
  | .null => by
    intro _
    show '\x60' ∉ ['n', 'u', 'l', 'l']
    decide
  | .bool b => by
    intro _
    cases b with
    | false => show '\x60' ∉ ['f', 'a', 'l', 's', 'e']; decide
    | true => show '\x60' ∉ ['t', 'r', 'u', 'e']; decide
  | .num i => by
    intro _
    exact intDigits_no_tick i
  | .str s => by
    intro h
    simp only [jNoTick, decide_eq_true_eq] at h
    show '\x60' ∉ '"' :: (escStr s ++ ['"'])
    intro hm
    rcases List.mem_cons.1 hm with hm | hm
    · exact absurd hm (by decide)
    · rcases List.mem_append.1 hm with hm | hm
      · exact escStr_no_tick s h hm
      · exact absurd hm (by decide)
  | .arr [] => by
    intro _
    show '\x60' ∉ ['[', ']']
    decide
  | .arr (v :: vs) => by
    intro h
    simp only [jNoTick, elsNoTick, Bool.and_eq_true] at h
    show '\x60' ∉ '[' :: (openWs ind (lvl + indentW ind) ++ pyDumpsAux ind (lvl + indentW ind) v ++
      arrTail ind (lvl + indentW ind) vs ++ closeWs ind lvl ++ [']'])
    intro hm
    rcases List.mem_cons.1 hm with hm | hm
    · exact absurd hm (by decide)
    · simp only [List.mem_append] at hm
      rcases hm with ((((hm | hm) | hm) | hm) | hm)
      · exact openWs_no_tick _ _ hm
      · exact dumps_no_tick ind _ v h.1 hm
      · exact arrTail_no_tick ind _ vs h.2 hm
      · exact closeWs_no_tick _ _ hm
      · exact absurd hm (by decide)
  | .obj [] => by
    intro _
    show '\x60' ∉ ['\x7b', '\x7d']
    decide
  | .obj (kv :: kvs) => by
    intro h
    simp only [jNoTick, memsNoTick, Bool.and_eq_true] at h
    show '\x60' ∉ '\x7b' :: (openWs ind (lvl + indentW ind) ++ memberStr ind (lvl + indentW ind) kv ++
      objTail ind (lvl + indentW ind) kvs ++ closeWs ind lvl ++ ['\x7d'])
    intro hm
    rcases List.mem_cons.1 hm with hm | hm
    · exact absurd hm (by decide)
    · simp only [List.mem_append] at hm
      rcases hm with ((((hm | hm) | hm) | hm) | hm)
      · exact openWs_no_tick _ _ hm
      · exact memberStr_no_tick ind _ kv (by
          rw [Bool.and_eq_true]
          exact ⟨h.1.1, h.1.2⟩) hm
      · exact objTail_no_tick ind _ kvs h.2 hm
      · exact closeWs_no_tick _ _ hm
      · exact absurd hm (by decide)

theorem memberStr_no_tick (ind : Option Nat) (lvl : Nat) :
    ∀ kv : LC × Json, (decide ('\x60' ∉ kv.1) && jNoTick kv.2) = true →
      '\x60' ∉ memberStr ind lvl kv
  | (k, v) => by
    intro h
    simp only [Bool.and_eq_true, decide_eq_true_eq] at h
    show '\x60' ∉ '"' :: (escStr k ++ '"' :: ':' :: ' ' :: pyDumpsAux ind lvl v)
    intro hm
    rcases List.mem_cons.1 hm with hm | hm
    · exact absurd hm (by decide)
    · rcases List.mem_append.1 hm with hm | hm
      · exact escStr_no_tick k h.1 hm
      · rcases List.mem_cons.1 hm with hm | hm
        · exact absurd hm (by decide)
        · rcases List.mem_cons.1 hm with hm | hm
          · exact absurd hm (by decide)
          · rcases List.mem_cons.1 hm with hm | hm
            · exact absurd hm (by decide)
            · exact dumps_no_tick ind lvl v h.2 hm

theorem objTail_no_tick (ind : Option Nat) (lvl : Nat) :
    ∀ kvs : List (LC × Json), memsNoTick kvs = true → '\x60' ∉ objTail ind lvl kvs
  | [] => by intro _; simp [objTail]
  | kv :: kvs => by
    intro h
    simp only [memsNoTick, Bool.and_eq_true] at h
    show '\x60' ∉ ',' :: (sepWs ind lvl ++ memberStr ind lvl kv ++ objTail ind lvl kvs)
    intro hm
    rcases List.mem_cons.1 hm with hm | hm
    · exact absurd hm (by decide)
    · simp only [List.mem_append] at hm
      rcases hm with (hm | hm) | hm
      · exact sepWs_no_tick _ _ hm
      · exact memberStr_no_tick ind lvl kv (by
          rw [Bool.and_eq_true]
          exact ⟨h.1.1, h.1.2⟩) hm
      · exact objTail_no_tick ind lvl kvs h.2 hm

theorem arrTail_no_tick (ind : Option Nat) (lvl : Nat) :
    ∀ vs : List Json, elsNoTick vs = true → '\x60' ∉ arrTail ind lvl vs
  | [] => by intro _; simp [arrTail]
  | v :: vs => by
    intro h
    simp only [elsNoTick, Bool.and_eq_true] at h
    show '\x60' ∉ ',' :: (sepWs ind lvl ++ pyDumpsAux ind lvl v ++ arrTail ind lvl vs)
    intro hm
    rcases List.mem_cons.1 hm with hm | hm
    · exact absurd hm (by decide)
    · simp only [List.mem_append] at hm
      rcases hm with (hm | hm) | hm
      · exact sepWs_no_tick _ _ hm
      · exact dumps_no_tick ind lvl v h.1 hm
      · exact arrTail_no_tick ind lvl vs h.2 hm

end

/- A whitespace-only text is not valid JSON for the scanner. -/

theorem skipJsonWs_mem (s : LC) : ∀ x ∈ skipJsonWs s, x ∈ s := by
  induction s with
  | nil => intro x hx; simp [skipJsonWs] at hx
  | cons c t ih =>
    intro x hx
    by_cases hc : isJsonWs c = true
    · rw [skipJsonWs, if_pos hc] at hx
      exact List.mem_cons_of_mem c (ih x hx)
    · rw [skipJsonWs_cons_neg _ _ (by simpa using hc)] at hx
      exact hx

theorem skipJsonWs_head_not_ws (s : LC) (c : Char) (r : LC) (h : skipJsonWs s = c :: r) :
    isJsonWs c = false := by
  induction s with
  | nil => simp [skipJsonWs] at h
  | cons a t ih =>
    by_cases ha : isJsonWs a = true
    · rw [skipJsonWs, if_pos ha] at h
      exact ih h
    · rw [skipJsonWs_cons_neg _ _ (by simpa using ha)] at h
      have : a = c := (List.cons.injEq _ _ _ _ ▸ h).1
      rw [← this]
      simpa using ha

theorem pyws_not_json_start {c : Char} (hp : isPyWs c = true) (hj : isJsonWs c = false) :
    c ≠ 'n' ∧ c ≠ 't' ∧ c ≠ 'f' ∧ c ≠ '"' ∧ c ≠ '\x7b' ∧ c ≠ '[' ∧ c ≠ '-' ∧ c ≠ '0' ∧
      isDigitC c = false := by
  simp only [isPyWs, isJsonWs, Bool.or_eq_true, decide_eq_true_eq, Bool.and_eq_true] at hp
  simp only [isJsonWs, Bool.or_eq_false_iff, decide_eq_false_iff_not] at hj
  refine ⟨?_, ?_, ?_, ?_, ?_, ?_, ?_, ?_, ?_⟩
  · exact char_ne_of_toNat (by rw [show ('n' : Char).toNat = 110 from rfl]; omega)
  · exact char_ne_of_toNat (by rw [show ('t' : Char).toNat = 116 from rfl]; omega)
  · exact char_ne_of_toNat (by rw [show ('f' : Char).toNat = 102 from rfl]; omega)
  · exact char_ne_of_toNat (by rw [show ('"' : Char).toNat = 34 from rfl]; omega)
  · exact char_ne_of_toNat (by rw [show ('\x7b' : Char).toNat = 123 from rfl]; omega)
  · exact char_ne_of_toNat (by rw [show ('[' : Char).toNat = 91 from rfl]; omega)
  · exact char_ne_of_toNat (by rw [show ('-' : Char).toNat = 45 from rfl]; omega)
  · exact char_ne_of_toNat (by rw [show ('0' : Char).toNat = 48 from rfl]; omega)
  · simp only [isDigitC, Bool.and_eq_false_iff, decide_eq_false_iff_not]
    omega

theorem pyLoads_all_ws (s : LC) (h : ∀ c ∈ s, isPyWs c = true) : pyLoads s = none := by
  have hv : parseVal (s.length + 1) s = none := by
    cases hsk : skipJsonWs s with
    | nil => rw [parseVal, hsk]
    | cons c r =>
      have hcp : isPyWs c = true := h c (skipJsonWs_mem s c (hsk ▸ List.mem_cons_self c r))
      have hcj : isJsonWs c = false := skipJsonWs_head_not_ws s c r hsk
      obtain ⟨h1, h2, h3, h4, h5, h6, h7, h8, h9⟩ := pyws_not_json_start hcp hcj
      rw [parseVal_cons s.length s c r hsk]
      rw [if_neg h1, if_neg h2, if_neg h3, if_neg h4, if_neg h5, if_neg h6, if_neg h7]
      rw [parseUNum, if_neg h8, if_neg (by simp [h9])]
      rfl
  rw [pyLoads]
  simp only [hv]

/- Unfolding helpers used by the claim-level theorems. -/

theorem dropLeadPyWs_dumps_nil (ind : Option Nat) (lvl : Nat) (j : Json) :
    dropLeadPyWs (pyDumpsAux ind lvl j) = pyDumpsAux ind lvl j := by
  have := dropLeadPyWs_dumps ind lvl j []
  simpa using this

theorem dropTrailPyWs_dumps_nil (ind : Option Nat) (lvl : Nat) (j : Json) :
    dropTrailPyWs (pyDumpsAux ind lvl j) = pyDumpsAux ind lvl j := by
  have := dropTrailPyWs_dumps_append ind lvl j [] (by simp)
  simpa using this

theorem normalizeContent_str_isOk (s : LC) : ∃ t, normalizeContent (.str s) = .ok t := by
  rw [normalizeContent]
  cases hl : pyLoads s with
  | some v => simp only [hl]; exact ⟨pyDumps (some 2) v, rfl⟩
  | none =>
    simp only [hl]
    cases hf : findFence s with
    | none => simp only [hf]; exact ⟨s, rfl⟩
    | some interior =>
      simp only [hf]
      cases hl2 : pyLoads interior with
      | some v => simp only [hl2]; exact ⟨pyDumps (some 2) v, rfl⟩
      | none => simp only [hl2]; exact ⟨s, rfl⟩

/-- The success branches of `get_response` reduced for the canonical payload
shape the completions API returns. -/
theorem getResponseNormalize_mkPayload (content : Json) :
    getResponseNormalize (mkPayload content) = normalizeContent content := rfl

/-- Lines 139-142: with no usable `choices`, the sentinel string is returned
(the shared helper behind several claims). -/
theorem sentinel_of_no_choices (p : List (LC × Json))
    (h : lookupKey p choicesKey = none ∨ lookupKey p choicesKey = some (.arr [])) :
    getResponseNormalize p = .ok (errSentinel ++ pyDumps (some 2) (.obj p)) := by
  rcases h with h | h
  · rw [getResponseNormalize]
    simp only [h]
  · rw [getResponseNormalize]
    simp only [h]
    rw [show pyLen (.arr []) = some 0 from rfl]
    simp

/- The ten claims. -/

/-- C1 (corrected): the original claim — that the normalizer returns a string
for EVERY payload and content value, never propagating an exception — is
refuted by `claim_c1_not_total`: `json.loads(None)` raises `TypeError`, which
the `except json.JSONDecodeError` clause on line 126 does not catch.  The
amended statement proved here: whenever the payload either carries no usable
`choices` or its first choice has a string `message.content`
(`payloadShapeOk`), `get_response` returns a string and raises nothing. -/
theorem claim_c1_amended (p : List (LC × Json)) (h : payloadShapeOk p = true) :
    ∃ t, getResponseNormalize p = .ok t := by
  rw [payloadShapeOk] at h
  rw [getResponseNormalize]
  cases h1 : lookupKey p choicesKey with
  | none => simp only [h1]; exact ⟨_, rfl⟩
  | some c =>
    simp only [h1] at h ⊢
    cases h2 : pyLen c with
    | none => simp only [h2] at h; exact absurd h (by decide)
    | some n =>
      simp only [h2] at h ⊢
      by_cases hn : n = 0
      · rw [if_neg (by omega)]
        exact ⟨_, rfl⟩
      · rw [if_pos (by omega)]
        rw [if_neg hn] at h
        cases h3 : pyGetItem c (.ix 0) with
        | error e => simp only [h3] at h; exact absurd h (by decide)
        | ok ch =>
          simp only [h3] at h ⊢
          cases h4 : pyGetItem ch (.key messageKey) with
          | error e => simp only [h4] at h; exact absurd h (by decide)
          | ok m =>
            simp only [h4] at h ⊢
            cases h5 : pyGetItem m (.key contentKey) with
            | error e => simp only [h5] at h; exact absurd h (by decide)
            | ok content =>
              simp only [h5] at h ⊢
              cases content with
              | str s => exact normalizeContent_str_isOk s
              | null => simp [isStrJ] at h
              | bool b => simp [isStrJ] at h
              | num i => simp [isStrJ] at h
              | arr xs => simp [isStrJ] at h
              | obj kvs => simp [isStrJ] at h

/-- C1 counterexample: a payload whose first choice carries
`"content": null` makes `get_response` propagate `TypeError` to the caller
(line 123 calls `json.loads(None)`; line 126 catches only
`JSONDecodeError`). -/
theorem claim_c1_not_total :
    getResponseNormalize (mkPayload .null) = .exn .typeErr := rfl

/-- C1 witness: the amended theorem applied to a concrete well-shaped
payload. -/
theorem claim_c1_witness :
    ∃ t, getResponseNormalize (mkPayload (.str ('h' :: 'i' :: []))) = .ok t :=
  claim_c1_amended _ (by decide)

/-- C2 (confirmed): for every JSON value `D` representable as a Python
`json.loads` result (`jwf`: object keys duplicate-free, as Python dicts
guarantee), feeding its compact serialization through steps 1-2 returns the
canonical 2-space-indented serialization of `D` itself — key order and array
order preserved exactly, no filtering. -/
theorem claim_c2_round_trip (D : Json) (h : jwf D = true) :
    normalizeContent (.str (pyDumps none D)) = .ok (pyDumps (some 2) D) := by
  rw [normalizeContent]
  simp only [pyLoads_dumps none D h]

/-- C2 witness: the round trip on the section-8 example document. -/
theorem claim_c2_witness :
    normalizeContent (.str (pyDumps none (.obj [("menu".data, .str ("Soup".data))]))) =
      .ok (pyDumps (some 2) (.obj [("menu".data, .str ("Soup".data))])) :=
  claim_c2_round_trip _ (by decide)

/-- C3 (confirmed): when the payload has no `choices` key, or its `choices`
list is empty, `get_response` returns exactly the sentinel literal
`ERROR PROCESSING IMAGE: ` followed by the payload dumped with 2-space
indentation (lines 139-142). -/
theorem claim_c3_sentinel (p : List (LC × Json))
    (h : lookupKey p choicesKey = none ∨ lookupKey p choicesKey = some (.arr [])) :
    getResponseNormalize p = .ok (errSentinel ++ pyDumps (some 2) (.obj p)) :=
  sentinel_of_no_choices p h

/-- C3 witness: the section-8 scenario 4 payload. -/
theorem claim_c3_witness :
    getResponseNormalize [("error".data, .str ("timeout".data))] =
      .ok (errSentinel ++ pyDumps (some 2) (.obj [("error".data, .str ("timeout".data))])) :=
  claim_c3_sentinel _ (Or.inl rfl)

/-- C4 (confirmed): for any prose `pre` (no backtick) around a fenced block
whose interior is the compact serialization of a backtick-free well-formed
value `D`, if the whole text is not itself valid JSON then the normalizer
returns the canonical 2-space serialization of `D` — the fence contents, not
the prose. -/
theorem claim_c4_fence_extraction (pre post : LC) (D : Json) (hpre : '\x60' ∉ pre)
    (hnt : jNoTick D = true) (hwf : jwf D = true)
    (hnl : pyLoads (fencedText pre (pyDumps none D) post) = none) :
    normalizeContent (.str (fencedText pre (pyDumps none D) post)) =
      .ok (pyDumps (some 2) D) := by
  have hmid : '\x60' ∉ pyDumps none D := dumps_no_tick none 0 D hnt
  have hff := findFence_fenced pre (pyDumps none D) post hpre hmid
  have hcap : dropTrailPyWs (dropLeadPyWs (pyDumps none D)) = pyDumps none D := by
    rw [show dropLeadPyWs (pyDumps none D) = pyDumps none D from dropLeadPyWs_dumps_nil none 0 D]
    exact dropTrailPyWs_dumps_nil none 0 D
  rw [hcap] at hff
  rw [normalizeContent]
  simp only [hnl, hff, pyLoads_dumps none D hwf]

/-- C4 witness: section-8 scenario 2, prose before and after the fence. -/
theorem claim_c4_witness :
    normalizeContent (.str (fencedText ("Here you go:".data)
        (pyDumps none (.obj [("menu".data, .str ("Rice".data))])) ("\nEnjoy!".data))) =
      .ok (pyDumps (some 2) (.obj [("menu".data, .str ("Rice".data))])) :=
  claim_c4_fence_extraction _ _ _ (by decide) (by decide) (by decide) rfl

/-- C5 (confirmed): when the first fenced block's interior `i1` fails to
parse, the normalizer returns the original full text verbatim, regardless of
what follows the first block — in particular even when the trailing text
`tail2` contains a second fenced block with valid interior. -/
theorem claim_c5_first_fence_only (pre i1 tail2 : LC) (hpre : '\x60' ∉ pre)
    (hi1 : '\x60' ∉ i1)
    (hcap : pyLoads (dropTrailPyWs (dropLeadPyWs i1)) = none)
    (hnl : pyLoads (fencedText pre i1 tail2) = none) :
    normalizeContent (.str (fencedText pre i1 tail2)) = .ok (fencedText pre i1 tail2) := by
  have hff := findFence_fenced pre i1 tail2 hpre hi1
  rw [normalizeContent]
  simp only [hnl, hff, hcap]

/-- C5 witness: the first fence holds the unparsable `\x7boops`, the second
fence (inside `tail2`) holds valid JSON; output is the whole original
text. -/
theorem claim_c5_witness :
    normalizeContent (.str (fencedText ("A ".data) ("\x7boops".data)
        (" and ```json\n[1, 2]\n``` done".data))) =
      .ok (fencedText ("A ".data) ("\x7boops".data) (" and ```json\n[1, 2]\n``` done".data)) :=
  claim_c5_first_fence_only _ _ _ (by decide) (by decide) rfl rfl

/-- C6 (corrected): the original claim said every payload "carrying no
completion content", including one whose choices entry lacks a message or
whose content is empty, yields the ErrorMarker.  In the code only a missing
`choices` key or an empty `choices` list does (first conjunct); a choice
without a `message` key raises `KeyError` instead of returning the marker
(second conjunct), and an empty-string content returns the empty string, not
the marker (third conjunct). -/
theorem claim_c6_amended :
    (∀ p : List (LC × Json),
      (lookupKey p choicesKey = none ∨ lookupKey p choicesKey = some (.arr [])) →
      getResponseNormalize p = .ok (errSentinel ++ pyDumps (some 2) (.obj p))) ∧
    getResponseNormalize [(choicesKey, .arr [.obj []])] = .exn .keyErr ∧
    getResponseNormalize (mkPayload (.str [])) = .ok [] :=
  ⟨fun p h => sentinel_of_no_choices p h, rfl, rfl⟩

/-- C6 counterexample: an empty-string content (no completion text) is
returned as the empty string, not as the sentinel-prefixed ErrorMarker the
claim promises. -/
theorem claim_c6_empty_content_no_marker :
    getResponseNormalize (mkPayload (.str [])) = .ok [] ∧
    getResponseNormalize (mkPayload (.str [])) ≠
      .ok (errSentinel ++ pyDumps (some 2) (.obj (mkPayload (.str [])))) :=
  ⟨rfl, by decide⟩

/-- C6 witness: the sentinel conjunct applied to the empty payload. -/
theorem claim_c6_witness :
    getResponseNormalize [] = .ok (errSentinel ++ pyDumps (some 2) (.obj [])) :=
  claim_c6_amended.1 [] (Or.inl rfl)

/-- C7 (corrected): whitespace-only content does fail step 1 and is never
promoted to an ErrorMarker, but it is returned VERBATIM — the claim's
"ultimately returns the empty string" holds only for the empty string
itself; `claim_c7_ws_verbatim` shows a single space comes back as that
space, not as the empty string.  Amended: whitespace-only or empty content
after a successful upstream call is returned unchanged as pass-through. -/
theorem claim_c7_amended (s : LC) (h : ∀ c ∈ s, isPyWs c = true) :
    getResponseNormalize (mkPayload (.str s)) = .ok s := by
  rw [getResponseNormalize_mkPayload]
  have hl := pyLoads_all_ws s h
  have hsp : splitAtFirst fenceMarker s = none :=
    splitAtFirst_none_of_notMem '\x60' ['\x60', '\x60', 'j', 's', 'o', 'n'] s
      (fun hm => absurd (h _ hm) (by decide))
  have hff : findFence s = none := by
    rw [findFence]
    simp only [hsp]
  rw [normalizeContent]
  simp only [hl, hff]

/-- C7 counterexample: content consisting of one space is returned as that
one-character string, which differs from the empty string the claim
specifies. -/
theorem claim_c7_ws_verbatim :
    getResponseNormalize (mkPayload (.str [' '])) = .ok [' '] ∧
    getResponseNormalize (mkPayload (.str [' '])) ≠ .ok [] :=
  ⟨rfl, by decide⟩

/-- C7 witness: space-and-tab content passes through unchanged. -/
theorem claim_c7_witness :
    getResponseNormalize (mkPayload (.str [' ', '\t'])) = .ok [' ', '\t'] :=
  claim_c7_amended _ (by decide)

/-- C8 (confirmed): step 1 imposes no schema gate: whatever value
`json.loads` yields — object or not — is re-serialized and returned; no
field of the StructuredRecord schema is ever consulted. -/
theorem claim_c8_no_schema_gate (s : LC) (v : Json) (h : pyLoads s = some v) :
    normalizeContent (.str s) = .ok (pyDumps (some 2) v) := by
  rw [normalizeContent]
  simp only [h]

/-- C8 witness: a bare top-level array is accepted and canonicalized. -/
theorem claim_c8_witness :
    normalizeContent (.str ("[1, 2]".data)) = .ok (pyDumps (some 2) (.arr [.num 1, .num 2])) :=
  claim_c8_no_schema_gate _ _ rfl

/-- C9 (confirmed): canonicalization is idempotent — the 2-space-indented
serialization of any Python-representable value `D` (`jwf`: dict keys
duplicate-free) parses back to `D` in step 1 and is re-emitted
character-for-character identical. -/
theorem claim_c9_idempotent (D : Json) (h : jwf D = true) :
    normalizeContent (.str (pyDumps (some 2) D)) = .ok (pyDumps (some 2) D) := by
  rw [normalizeContent]
  simp only [pyLoads_dumps (some 2) D h]

/-- C9 witness: idempotence on a two-field document containing a nested
array. -/
theorem claim_c9_witness :
    normalizeContent (.str (pyDumps (some 2) (.obj [("menu".data, .str ("Rice".data)),
        ("features".data, .arr [.str ("MSG-Free".data), .num 400])]))) =
      .ok (pyDumps (some 2) (.obj [("menu".data, .str ("Rice".data)),
        ("features".data, .arr [.str ("MSG-Free".data), .num 400])])) :=
  claim_c9_idempotent _ (by decide)

/-- C10 (corrected): the regex tag match is indeed case-sensitive lowercase
(`JSON`-tagged fences are not found: amended theorem, which also covers
untagged and differently-tagged fences via absence of the literal
`` ```json ``), but the claimed equivalence "different language hint implies
pass-through" fails: a hint merely BEGINNING with `json`, such as
`json-5`, still matches the literal, as `claim_c10_prefix_hint_matches`
shows. -/
theorem claim_c10_amended (t : LC) (h1 : pyLoads t = none)
    (h2 : hasSub fenceMarker t = false) :
    findFence t = none ∧ normalizeContent (.str t) = .ok t := by
  have hsp : splitAtFirst fenceMarker t = none :=
    Option.not_isSome_iff_eq_none.1 (by rw [hasSub] at h2; simp [h2])
  have hff : findFence t = none := by
    rw [findFence]
    simp only [hsp]
  refine ⟨hff, ?_⟩
  rw [normalizeContent]
  simp only [h1, hff]

/-- C10 counterexample: the language hint `json-5` is not `json`, yet the
regex literal still fires on its first four letters and the block parses as
the number -5, so the original text is NOT returned verbatim. -/
theorem claim_c10_prefix_hint_matches :
    normalizeContent (.str ("hello ```json-5\n```".data)) = .ok ("-5".data) ∧
    normalizeContent (.str ("hello ```json-5\n```".data)) ≠
      .ok ("hello ```json-5\n```".data) :=
  ⟨rfl, by decide⟩

/-- C10 witness: an uppercase `JSON` tag is not recognized and the text
passes through verbatim. -/
theorem claim_c10_witness :
    findFence ("see ```JSON\n[1]\n``` end".data) = none ∧
    normalizeContent (.str ("see ```JSON\n[1]\n``` end".data)) =
      .ok ("see ```JSON\n[1]\n``` end".data) :=
  claim_c10_amended _ rfl (by decide)
